import Mathlib

/-!
Binary heap over raw Go slices (`heap.go`).

A shallow embedding of the package's fallback path (the `default:` branches of
`heap.go`, taken by every value that does not implement `container/heap.Interface`)
together with proofs about it.

* A value `h interface{}` is a `Dyn`: a pointer to an `[]int`, a pointer to a
  `[]string`, or a value of some other dynamic type.  In-place mutation through
  the pointer is modelled by returning the new `Dyn`.
* Go `int` is 64 bit: index arithmetic goes through `wrap` (wrap-around modulo
  `2^64`), and `/` is `Int.tdiv` (truncation toward zero, so `(0 - 1) / 2 = 0`).
  Elements are only compared, never computed with, so they are plain `Int`.
* A runtime panic is an `Except.error` carrying a `Fault`.
* The `for` loops take a fuel argument; their callers pass `size h + 1`, which
  the theorems below show is always enough.
* `len` returns a Go `int`, so every slice is shorter than `maxLen = 2^63`; the
  theorems carry this as the hypothesis `a.length < maxLen`.
* Values implementing `container/heap.Interface` are delegated by `heap.go` to the
  standard library and are not part of `Dyn`.

The loops are then restated on natural-number indices (`downN`, `upN`, `initN`),
shown equal to the embedded loops on `[]int` (`downLoop_ints`, `upLoop_ints`,
`initLoop_ints`), and the order and permutation arguments are carried out there.
-/

namespace Heap

/-! ## Data model -/

/-- Runtime panics of the program: an index expression out of range, the
`panic("unsupported ...")` of the `default:` branches, a failed type assertion `x.(int)`.
The last constructor is not a panic: it is the loop budget of the model running out. -/
inductive Fault where
  | indexOutOfRange
  | unsupported
  | typeAssertion
  | fuel
  deriving DecidableEq, Repr

/-- Error values returned (not panicked) by `Init`: `ErrUnsupportedHeap` wrapped with a type name. -/
inductive Error where
  | unsupportedHeap (typeName : String)
  deriving DecidableEq, Repr

/-- A value of static type `any`, as passed to `Push` and returned by `Pop`. -/
inductive Any where
  | int (v : Int)
  | str (s : String)
  | other (typeName : String)
  deriving DecidableEq, Repr

/-- The dynamic value behind `h interface{}`: `*[]int`, `*[]string`, or a value of another
type (named by its `%T`) that does not implement `container/heap.Interface`. -/
inductive Dyn where
  | ints (a : List Int)
  | strs (a : List String)
  | other (typeName : String)
  deriving DecidableEq, Repr

/-- Wrap-around of a 64 bit Go `int`.  Kept irreducible so that unification never unfolds
the 64 bit constants; proofs use `unfold wrap`. -/
@[irreducible] def wrap (x : Int) : Int :=
  (x + 9223372036854775808) % 18446744073709551616 - 9223372036854775808

/-- Largest slice length a Go `int` can hold, plus one. -/
def maxLen : Nat := 9223372036854775808

/-- Go index expression `arr[i]`: panics outside `[0, len(arr))`. -/
def index {α : Type} (a : List α) (i : Int) : Except Fault α :=
  if i < 0 then .error .indexOutOfRange
  else match a[i.toNat]? with
    | some v => .ok v
    | none => .error .indexOutOfRange

/-- Go `arr[i], arr[j] = arr[j], arr[i]`: both operands are read before either is written. -/
def swapAt {α : Type} (a : List α) (i j : Int) : Except Fault (List α) := do
  let y ← index a j
  let x ← index a i
  pure ((a.set i.toNat y).set j.toNat x)

/-- Go `%T` of the value. -/
def typeName : Dyn → String
  | .ints _ => "*[]int"
  | .strs _ => "*[]string"
  | .other t => t

/-- Number of elements held; used only as loop budget. -/
def size : Dyn → Nat
  | .ints a => a.length
  | .strs a => a.length
  | .other _ => 0

/-! ## Primitives (`heap.go` lines 41-50, 67-93, 128-139, 172-194) -/

/-- Source `IsSupported` (lines 172-179): only `*[]int` is listed. -/
def IsSupported : Dyn → Bool
  | .ints _ => true
  | _ => false

/-- Source `Len` (lines 84-93). -/
def Len : Dyn → Except Fault Int
  | .ints a => .ok (a.length : Int)
  | .strs a => .ok (a.length : Int)
  | .other _ => .error .unsupported

/-- Source `Less` (lines 181-194): `arr[i] < arr[j]` in the natural order of the elements. -/
def Less : Dyn → Int → Int → Except Fault Bool
  | .ints a, i, j => do
    let x ← index a i
    let y ← index a j
    pure (decide (x < y))
  | .strs a, i, j => do
    let x ← index a i
    let y ← index a j
    pure (decide (x < y))
  | .other _, _, _ => .error .unsupported

/-- Source `Swap` (lines 128-139). -/
def Swap : Dyn → Int → Int → Except Fault Dyn
  | .ints a, i, j => do
    let a ← swapAt a i j
    pure (.ints a)
  | .strs a, i, j => do
    let a ← swapAt a i j
    pure (.strs a)
  | .other _, _, _ => .error .unsupported

/-- Source `Append` (lines 41-50): `append(*h, x.(int))`, the assertion panicking on a value
of another type. -/
def Append : Dyn → Any → Except Fault Dyn
  | .ints a, .int v => .ok (.ints (a ++ [v]))
  | .ints _, _ => .error .typeAssertion
  | .strs a, .str s => .ok (.strs (a ++ [s]))
  | .strs _, _ => .error .typeAssertion
  | .other _, _ => .error .unsupported

/-- Source `PopLast` (lines 67-82): reads `arr[len(arr)-1]`, then keeps `arr[:len(arr)-1]`. -/
def PopLast : Dyn → Except Fault (Any × Dyn)
  | .ints a => do
    let ret ← index a (wrap ((a.length : Int) - 1))
    pure (.int ret, .ints a.dropLast)
  | .strs a => do
    let ret ← index a (wrap ((a.length : Int) - 1))
    pure (.str ret, .strs a.dropLast)
  | .other _ => .error .unsupported

/-! ## Sift loops (`heap.go` lines 141-170) -/

/-- The `for` loop of `up` (lines 142-149), one iteration per unit of fuel.  The test
`i == j || !Less(h, j, i)` short-circuits: `Less` is not called when `i == j`. -/
def upLoop : Nat → Dyn → Int → Except Fault Dyn
  | 0, _, _ => .error .fuel
  | fuel + 1, h, j => do
    let i := Int.tdiv (wrap (j - 1)) 2
    if i = j then pure h
    else do
      let lt ← Less h j i
      if !lt then pure h
      else do
        let h ← Swap h i j
        upLoop fuel h i

/-- Source `up` (lines 141-150). -/
def up (h : Dyn) (j : Int) : Except Fault Dyn :=
  upLoop (size h + 1) h j

/-- The `for` loop of `down` (lines 154-168), returning the slice and the final value of `i`.
The test `j2 < n && Less(h, j2, j1)` short-circuits. -/
def downLoop : Nat → Dyn → Int → Int → Except Fault (Dyn × Int)
  | 0, _, _, _ => .error .fuel
  | fuel + 1, h, i, n => do
    let j1 := wrap (2 * i + 1)
    if j1 ≥ n ∨ j1 < 0 then pure (h, i)
    else do
      let j2 := wrap (j1 + 1)
      let right ← if j2 < n then Less h j2 j1 else pure false
      let j := if right then j2 else j1
      let lt ← Less h j i
      if !lt then pure (h, i)
      else do
        let h ← Swap h i j
        downLoop fuel h j n

/-- Source `down` (lines 152-170): the loop, then `return i > i0`. -/
def down (h : Dyn) (i0 n : Int) : Except Fault (Dyn × Bool) := do
  let (h, i) ← downLoop (size h + 1) h i0 n
  pure (h, decide (i > i0))

/-! ## Public operations (`heap.go` lines 11-39, 52-65, 95-126) -/

/-- The loop `for i := n/2 - 1; i >= 0; i--` of `Init`, started at `i`. -/
def initLoop : Nat → Dyn → Int → Int → Except Fault Dyn
  | 0, _, _, _ => .error .fuel
  | fuel + 1, h, i, n =>
    if i ≥ 0 then do
      let (h, _) ← down h i n
      initLoop fuel h (wrap (i - 1)) n
    else pure h

/-- Source `Init` (lines 11-26): its `error` result (`none` for `nil`) and the slice as it
leaves it. -/
def Init (h : Dyn) : Except Fault (Option Error × Dyn) :=
  if !IsSupported h then pure (some (.unsupportedHeap (typeName h)), h)
  else do
    let n ← Len h
    let h ← initLoop (size h + 1) h (wrap (Int.tdiv n 2 - 1)) n
    pure (none, h)

/-- Source `Push` (lines 30-39): it always returns `nil`, so only the slice it leaves is
kept. -/
def Push (h : Dyn) (x : Any) : Except Fault Dyn := do
  let h ← Append h x
  let n ← Len h
  up h (wrap (n - 1))

/-- Source `Pop` (lines 55-65): the returned value and the slice left. -/
def Pop (h : Dyn) : Except Fault (Any × Dyn) := do
  let len ← Len h
  let n := wrap (len - 1)
  let h ← Swap h 0 n
  let (h, _) ← down h 0 n
  PopLast h

/-- Source `Remove` (lines 97-111): the returned value and the slice left. -/
def Remove (h : Dyn) (i : Int) : Except Fault (Any × Dyn) := do
  let len ← Len h
  let n := wrap (len - 1)
  if n ≠ i then do
    let h ← Swap h i n
    let (h, moved) ← down h i n
    if !moved then do
      let h ← up h i
      PopLast h
    else PopLast h
  else PopLast h

/-- Source `Fix` (lines 117-126). -/
def Fix (h : Dyn) (i : Int) : Except Fault Dyn := do
  let n ← Len h
  let (h, moved) ← down h i n
  if !moved then up h i else pure h

/-! ## The heap invariant -/

/-- No child is less than its parent: for every index `i` and child `c ∈ {2i+1, 2i+2}`
in range, `¬ a[c] < a[i]`. -/
def HeapInv (a : List Int) : Prop :=
  ∀ (i : Nat) (hi : i < a.length) (c : Nat) (hc : c < a.length),
    c = 2 * i + 1 ∨ c = 2 * i + 2 → ¬ (a[c] < a[i])

instance (a : List Int) : Decidable (HeapInv a) := by
  unfold HeapInv; infer_instance

deriving instance DecidableEq for Except

/-! ## Proof layer: the loops on natural-number indices

These definitions are not the embedding: they restate the loops above for `[]int` with
indices in range, and are shown equal to them before anything is proved about them. -/

/-- Entry `k` of the list, `0` outside it. -/
def ent (a : List Int) (k : Nat) : Int := a.getD k 0

/-- Exchange of the entries at `i` and `j`. -/
def swapN (a : List Int) (i j : Nat) : List Int :=
  (a.set i (ent a j)).set j (ent a i)

/-- The child of `i` that `down` compares with `i`: the right one when it is in range and
less than the left one, otherwise the left one. -/
def child (a : List Int) (i n : Nat) : Nat :=
  if 2 * i + 2 < n ∧ ent a (2 * i + 2) < ent a (2 * i + 1) then 2 * i + 2 else 2 * i + 1

/-- The loop of `down` on natural numbers: the list and the final index. -/
def downN : Nat → List Int → Nat → Nat → List Int × Nat
  | 0, a, i, _ => (a, i)
  | f + 1, a, i, n =>
    if n ≤ 2 * i + 1 then (a, i)
    else if ent a (child a i n) < ent a i then downN f (swapN a i (child a i n)) (child a i n) n
    else (a, i)

/-- The loop of `up` on natural numbers. -/
def upN : Nat → List Int → Nat → List Int
  | 0, a, _ => a
  | f + 1, a, j =>
    if j = 0 then a
    else if ent a j < ent a ((j - 1) / 2) then upN f (swapN a ((j - 1) / 2) j) ((j - 1) / 2) else a

/-- The loop of `Init` on natural numbers: sift down from index `k - 1` to index `0`. -/
def initN : Nat → List Int → Nat → List Int
  | 0, a, _ => a
  | k + 1, a, n => initN k (downN a.length a k n).1 n

/-! ### Heap order on a part of the index pairs, used as loop invariants -/

/-- Every pair (parent, child) below `n` whose parent is at least `lo` is in order. -/
def HeapFrom (a : List Int) (n lo : Nat) : Prop :=
  ∀ c, 0 < c → c < n → lo ≤ (c - 1) / 2 → ent a ((c - 1) / 2) ≤ ent a c

/-- As `HeapFrom`, for the pairs that do not contain index `i`. -/
def Below (a : List Int) (n lo i : Nat) : Prop :=
  ∀ c, 0 < c → c < n → lo ≤ (c - 1) / 2 → (c - 1) / 2 ≠ i → c ≠ i →
    ent a ((c - 1) / 2) ≤ ent a c

/-- The parent of `i` is in order with the children of `i`. -/
def Skip (a : List Int) (n lo i : Nat) : Prop :=
  ∀ c, 0 < c → c < n → (c - 1) / 2 = i → 0 < i → lo ≤ (i - 1) / 2 →
    ent a ((i - 1) / 2) ≤ ent a c

/-- The parent of `i` is in order with `i`. -/
def Top (a : List Int) (n lo i : Nat) : Prop :=
  0 < i → i < n → lo ≤ (i - 1) / 2 → ent a ((i - 1) / 2) ≤ ent a i

/-- Index `i` is in order with its children. -/
def Kids (a : List Int) (n i : Nat) : Prop :=
  ∀ c, 0 < c → c < n → (c - 1) / 2 = i → ent a i ≤ ent a c

/-- The repair step shared by `Remove` and `Fix`: `if !down(h, i, n) { up(h, i) }`. -/
def repairN (b : List Int) (i n : Nat) : List Int :=
  if i < (downN b.length b i n).2 then (downN b.length b i n).1
  else upN b.length (downN b.length b i n).1 i

/-- The slice `Remove` holds just before `PopLast`. -/
def removeN (a : List Int) (i : Nat) : List Int :=
  if a.length - 1 = i then a else repairN (swapN a i (a.length - 1)) i (a.length - 1)

/-! ## Test scenarios (`heap_test.go`) -/

/-- Push the elements of a list one at a time, in order. -/
def pushAll : List Int → Dyn → Except Fault Dyn
  | [], h => pure h
  | x :: xs, h => do
    let h ← Push h (.int x)
    pushAll xs h

/-- Call `Pop` `k` times, collecting the returned values in order. -/
def popN : Nat → Dyn → Except Fault (List Any × Dyn)
  | 0, h => pure ([], h)
  | k + 1, h => do
    let (v, h) ← Pop h
    let (vs, h) ← popN k h
    pure (v :: vs, h)

/-- The loop `for len(*h) > 0 { Remove(h, (len(*h)-1)/2) }` of `TestRemove2`, collecting the
returned values in order; one iteration per unit of fuel. -/
def removeMid : Nat → Dyn → Except Fault (List Any × Dyn)
  | 0, _ => .error .fuel
  | k + 1, h => do
    let n ← Len h
    if n > 0 then do
      let (v, h) ← Remove h (Int.tdiv (wrap (n - 1)) 2)
      let (vs, h) ← removeMid k h
      pure (v :: vs, h)
    else pure ([], h)

/-- The first statements of `TestHeap` (`intheap_test.go` lines 9-16): the value of `min`. -/
def testHeapMin : Except Fault Any := do
  let (_, h) ← Init (.ints [5, 7, 1, 3])
  let h ← Push h (.int 3)
  let (min, _) ← Pop h
  pure min

/-- The check `if min != 0` of `TestHeap` (`intheap_test.go` lines 17-19), which reports an
error unless the popped value is the int `0`: `true` when it passes. -/
def testHeapCheck : Except Fault Bool := do
  let min ← testHeapMin
  pure (decide (min = .int 0))

/-! ## Instrumented `down`: counting the exchanges -/

/-- The loop of `down` with a ghost counter of the calls to `Swap`: `downLoop` with one more
component, which starts at `c` and is incremented next to each `Swap`. -/
def downSwaps : Nat → Dyn → Int → Int → Nat → Except Fault (Dyn × Int × Nat)
  | 0, _, _, _, _ => .error .fuel
  | fuel + 1, h, i, n, c => do
    let j1 := wrap (2 * i + 1)
    if j1 ≥ n ∨ j1 < 0 then pure (h, i, c)
    else do
      let j2 := wrap (j1 + 1)
      let right ← if j2 < n then Less h j2 j1 else pure false
      let j := if right then j2 else j1
      let lt ← Less h j i
      if !lt then pure (h, i, c)
      else do
        let h ← Swap h i j
        downSwaps fuel h j n (c + 1)

/-- The number of exchanges made by `downN`. -/
def downCount : Nat → List Int → Nat → Nat → Nat
  | 0, _, _, _ => 0
  | f + 1, a, i, n =>
    if n ≤ 2 * i + 1 then 0
    else if ent a (child a i n) < ent a i then
      1 + downCount f (swapN a i (child a i n)) (child a i n) n
    else 0

/-! ## Theorems -/

/-! ### The loops on `[]int` agree with their natural-number counterparts -/

theorem index_nat (a : List Int) (k : Nat) (hk : k < a.length) :
    index a (k : Int) = .ok (ent a k) := by
  unfold index ent
  have h0 : ¬ ((k : Int) < 0) := by omega
  simp [h0, List.getElem?_eq_getElem hk]

theorem index_neg {α : Type} (a : List α) (i : Int) (hi : i < 0) :
    index a i = .error .indexOutOfRange := by
  unfold index; simp [hi]

theorem index_ge {α : Type} (a : List α) (i : Int) (hi : (a.length : Int) ≤ i) :
    index a i = .error .indexOutOfRange := by
  unfold index
  have h0 : ¬ (i < 0) := by omega
  have h1 : a.length ≤ i.toNat := by omega
  simp [h0, List.getElem?_eq_none h1]

theorem swapAt_nat (a : List Int) (i j : Nat) (hi : i < a.length) (hj : j < a.length) :
    swapAt a (i : Int) (j : Int) = .ok (swapN a i j) := by
  unfold swapAt
  rw [index_nat a j hj, index_nat a i hi]
  rfl

theorem Less_ints (a : List Int) (i j : Nat) (hi : i < a.length) (hj : j < a.length) :
    Less (.ints a) (i : Int) (j : Int) = .ok (decide (ent a i < ent a j)) := by
  simp only [Less]
  rw [index_nat a i hi, index_nat a j hj]
  rfl

theorem Swap_ints (a : List Int) (i j : Nat) (hi : i < a.length) (hj : j < a.length) :
    Swap (.ints a) (i : Int) (j : Int) = .ok (.ints (swapN a i j)) := by
  simp only [Swap]
  rw [swapAt_nat a i j hi hj]
  rfl

theorem length_swapN (a : List Int) (i j : Nat) : (swapN a i j).length = a.length := by
  simp [swapN]

theorem ent_swapN (a : List Int) (i j k : Nat) (hi : i < a.length) (hj : j < a.length) :
    ent (swapN a i j) k = if k = j then ent a i else if k = i then ent a j else ent a k := by
  unfold swapN ent
  simp only [List.getD_eq_getElem?_getD, List.getElem?_set, List.length_set]
  by_cases h1 : j = k
  · subst h1; simp [hj]
  · by_cases h2 : i = k
    · subst h2; simp [h1, hi, Ne.symm h1]
    · simp [h1, h2, Ne.symm h1, Ne.symm h2]

theorem wrap_id (x : Int) (h0 : -9223372036854775808 ≤ x) (h1 : x < 9223372036854775808) :
    wrap x = x := by
  unfold wrap; omega

theorem downLoop_ints (f : Nat) : ∀ (a : List Int) (i n : Nat), a.length < maxLen →
    n ≤ a.length → i < maxLen → n ≤ i + f + 1 →
    downLoop (f + 1) (.ints a) (i : Int) (n : Int)
      = .ok (.ints (downN f a i n).1, ((downN f a i n).2 : Int)) := by
  induction f with
  | zero =>
    intro a i n hlen hn hi hf
    have hb : wrap (2 * (i : Int) + 1) ≥ (n : Int) ∨ wrap (2 * (i : Int) + 1) < 0 := by
      unfold wrap; unfold maxLen at hi; omega
    simp only [downLoop, downN, hb, if_true]
    rfl
  | succ f ih =>
    intro a i n hlen hn hi hf
    rw [downLoop, downN]
    by_cases hc : n ≤ 2 * i + 1
    · have hb : wrap (2 * (i : Int) + 1) ≥ (n : Int) ∨ wrap (2 * (i : Int) + 1) < 0 := by
        unfold wrap; unfold maxLen at hi; omega
      simp only [hb, hc, if_true]
      rfl
    · have hj1 : wrap (2 * (i : Int) + 1) = ((2 * i + 1 : Nat) : Int) := by
        unfold wrap; unfold maxLen at hlen; push_cast; omega
      have hb : ¬ (((2 * i + 1 : Nat) : Int) ≥ (n : Int) ∨ ((2 * i + 1 : Nat) : Int) < 0) := by
        omega
      have hj2 : wrap (((2 * i + 1 : Nat) : Int) + 1) = ((2 * i + 2 : Nat) : Int) := by
        unfold wrap; unfold maxLen at hlen; push_cast; omega
      rw [hj1]
      simp only [hb, hc, if_false, hj2]
      have hi' : i < a.length := by omega
      have h1 : 2 * i + 1 < a.length := by omega
      unfold child
      by_cases h2 : 2 * i + 2 < n
      · have h2' : ((2 * i + 2 : Nat) : Int) < (n : Int) := by omega
        have h2l : 2 * i + 2 < a.length := by omega
        simp only [h2', h2, if_true, true_and, Less_ints a _ _ h2l h1]
        by_cases hr : ent a (2 * i + 2) < ent a (2 * i + 1)
        · simp only [hr, decide_True, if_true, Except.bind, bind, Less_ints a _ _ h2l hi']
          by_cases hl : ent a (2 * i + 2) < ent a i
          · simp only [hl, decide_True, Bool.not_true, Bool.false_eq_true, if_false, if_true,
              Swap_ints a _ _ hi' h2l]
            exact ih (swapN a i (2 * i + 2)) (2 * i + 2) n (by rw [length_swapN]; exact hlen)
              (by rw [length_swapN]; exact hn) (by omega) (by omega)
          · simp only [hl, decide_False, Bool.not_false, if_true, if_false]
            rfl
        · simp only [hr, decide_False, if_false, Except.bind, bind, Bool.false_eq_true,
            Less_ints a _ _ h1 hi']
          by_cases hl : ent a (2 * i + 1) < ent a i
          · simp only [hl, decide_True, Bool.not_true, Bool.false_eq_true, if_false, if_true,
              Swap_ints a _ _ hi' h1]
            exact ih (swapN a i (2 * i + 1)) (2 * i + 1) n (by rw [length_swapN]; exact hlen)
              (by rw [length_swapN]; exact hn) (by omega) (by omega)
          · simp only [hl, decide_False, Bool.not_false, if_true, if_false]
            rfl
      · have h2' : ¬ ((2 * i + 2 : Nat) : Int) < (n : Int) := by omega
        simp only [h2', h2, if_false, false_and, Except.bind, bind, pure, Except.pure,
          Bool.false_eq_true, Less_ints a _ _ h1 hi']
        by_cases hl : ent a (2 * i + 1) < ent a i
        · simp only [hl, decide_True, Bool.not_true, Bool.false_eq_true, if_false, if_true,
            Swap_ints a _ _ hi' h1]
          exact ih (swapN a i (2 * i + 1)) (2 * i + 1) n (by rw [length_swapN]; exact hlen)
            (by rw [length_swapN]; exact hn) (by omega) (by omega)
        · simp only [hl, decide_False, Bool.not_false, if_true, if_false]

theorem parent_nat (j : Nat) (hj : j < maxLen) :
    Int.tdiv (wrap ((j : Int) - 1)) 2 = (((j - 1) / 2 : Nat) : Int) := by
  unfold maxLen at hj
  rcases Nat.eq_zero_or_pos j with h0 | h0
  · subst h0
    have hw : wrap (((0 : Nat) : Int) - 1) = -1 := by unfold wrap; decide
    rw [hw]; decide
  · have hw : wrap ((j : Int) - 1) = ((j - 1 : Nat) : Int) := by
      unfold wrap; omega
    rw [hw, Int.tdiv_eq_ediv (by omega) (by omega)]
    omega

theorem upLoop_ints (f : Nat) : ∀ (a : List Int) (j : Nat), a.length < maxLen →
    j < a.length → j ≤ f →
    upLoop (f + 1) (.ints a) (j : Int) = .ok (.ints (upN f a j)) := by
  induction f with
  | zero =>
    intro a j hlen hj hf
    have h0 : j = 0 := by omega
    subst h0
    rw [upLoop, upN, parent_nat 0 (by unfold maxLen; omega)]
    simp only [Nat.zero_sub, Nat.zero_div, if_true]
    rfl
  | succ f ih =>
    intro a j hlen hj hf
    rw [upLoop, upN, parent_nat j (by omega)]
    by_cases h0 : j = 0
    · subst h0
      simp only [Nat.zero_sub, Nat.zero_div, if_true]
      rfl
    · have hne : ¬ ((((j - 1) / 2 : Nat) : Int) = (j : Int)) := by omega
      have hp : (j - 1) / 2 < a.length := by omega
      simp only [hne, h0, if_false, Less_ints a _ _ hj hp, Except.bind, bind]
      by_cases hl : ent a j < ent a ((j - 1) / 2)
      · simp only [hl, decide_True, Bool.not_true, Bool.false_eq_true, if_false, if_true,
          Swap_ints a _ _ hp hj]
        exact ih (swapN a ((j - 1) / 2) j) ((j - 1) / 2) (by rw [length_swapN]; exact hlen)
          (by rw [length_swapN]; exact hp) (by omega)
      · simp only [hl, decide_False, Bool.not_false, if_true, if_false]
        rfl

theorem length_downN (f : Nat) : ∀ (a : List Int) (i n : Nat),
    (downN f a i n).1.length = a.length := by
  induction f with
  | zero => intro a i n; rfl
  | succ f ih =>
    intro a i n
    rw [downN]
    split
    · rfl
    · split
      · rw [ih, length_swapN]
      · rfl

theorem length_upN (f : Nat) : ∀ (a : List Int) (j : Nat), (upN f a j).length = a.length := by
  induction f with
  | zero => intro a j; rfl
  | succ f ih =>
    intro a j
    rw [upN]
    split
    · rfl
    · split
      · rw [ih, length_swapN]
      · rfl

theorem length_initN (k : Nat) : ∀ (a : List Int) (n : Nat), (initN k a n).length = a.length := by
  induction k with
  | zero => intro a n; rfl
  | succ k ih => intro a n; rw [initN, ih, length_downN]

theorem down_ints (a : List Int) (i n : Nat) (hlen : a.length < maxLen) (hn : n ≤ a.length)
    (hi : i < maxLen) :
    down (.ints a) (i : Int) (n : Int)
      = .ok (.ints (downN a.length a i n).1, decide (i < (downN a.length a i n).2)) := by
  unfold down
  simp only [size]
  rw [downLoop_ints a.length a i n hlen hn hi (by omega)]
  simp only [bind, Except.bind, pure, Except.pure, gt_iff_lt, Nat.cast_lt]

theorem up_ints (a : List Int) (j : Nat) (hlen : a.length < maxLen) (hj : j < a.length) :
    up (.ints a) (j : Int) = .ok (.ints (upN a.length a j)) := by
  unfold up
  simp only [size]
  exact upLoop_ints a.length a j hlen hj (by omega)

theorem initLoop_ints (k : Nat) : ∀ (f : Nat) (a : List Int) (n : Nat), a.length < maxLen →
    n ≤ a.length → k ≤ a.length → k ≤ f →
    initLoop (f + 1) (.ints a) ((k : Int) - 1) (n : Int) = .ok (.ints (initN k a n)) := by
  induction k with
  | zero =>
    intro f a n hlen hn hk hf
    rw [initLoop]
    simp [initN, pure, Except.pure]
  | succ k ih =>
    intro f a n hlen hn hk hf
    obtain ⟨f, rfl⟩ : ∃ g, f = g + 1 := ⟨f - 1, by omega⟩
    rw [initLoop, initN]
    have hk0 : (((k + 1 : Nat) : Int) - 1) = (k : Int) := by omega
    have hge : (k : Int) ≥ 0 := by omega
    rw [hk0]
    simp only [hge, if_true]
    rw [down_ints a k n hlen hn (by omega)]
    have hw : wrap ((k : Int) - 1) = (k : Int) - 1 := by
      unfold wrap; unfold maxLen at hlen; omega
    simp only [bind, Except.bind, hw]
    exact ih f _ n (by rw [length_downN]; exact hlen) (by rw [length_downN]; exact hn)
      (by rw [length_downN]; omega) (by omega)

theorem Init_ints (a : List Int) (hlen : a.length < maxLen) :
    Init (.ints a) = .ok (none, .ints (initN (a.length / 2) a a.length)) := by
  unfold Init
  have hs : wrap (Int.tdiv (a.length : Int) 2 - 1) = ((a.length / 2 : Nat) : Int) - 1 := by
    rw [Int.tdiv_eq_ediv (by omega) (by omega)]
    unfold wrap; unfold maxLen at hlen; omega
  simp only [IsSupported, Len, size, Bool.not_true, Bool.false_eq_true, if_false, bind,
    Except.bind, hs]
  rw [initLoop_ints (a.length / 2) a.length a a.length hlen (le_refl _) (by omega) (by omega)]
  rfl

theorem Push_ints (a : List Int) (x : Int) (hlen : a.length + 1 < maxLen) :
    Push (.ints a) (.int x) = .ok (.ints (upN (a.length + 1) (a ++ [x]) a.length)) := by
  unfold Push
  have hw : wrap ((((a ++ [x]).length : Nat) : Int) - 1) = (a.length : Int) := by
    unfold wrap; unfold maxLen at hlen
    simp only [List.length_append, List.length_singleton]; omega
  simp only [Append, Len, bind, Except.bind, hw]
  rw [up_ints (a ++ [x]) a.length (by simpa using hlen) (by simp)]
  simp

theorem PopLast_ints (a : List Int) (hlen : a.length < maxLen) (hne : 0 < a.length) :
    PopLast (.ints a) = .ok (.int (ent a (a.length - 1)), .ints a.dropLast) := by
  have hw : wrap ((a.length : Int) - 1) = ((a.length - 1 : Nat) : Int) := by
    unfold wrap; unfold maxLen at hlen; omega
  simp only [PopLast, hw]
  rw [index_nat a (a.length - 1) (by omega)]
  rfl

theorem Pop_ints (a : List Int) (hlen : a.length < maxLen) (hne : 0 < a.length) :
    Pop (.ints a) = .ok
      (.int (ent (downN a.length (swapN a 0 (a.length - 1)) 0 (a.length - 1)).1 (a.length - 1)),
       .ints (downN a.length (swapN a 0 (a.length - 1)) 0 (a.length - 1)).1.dropLast) := by
  unfold Pop
  have hw : wrap ((a.length : Int) - 1) = ((a.length - 1 : Nat) : Int) := by
    unfold wrap; unfold maxLen at hlen; omega
  simp only [Len, bind, Except.bind, hw]
  have h0 : (0 : Int) = ((0 : Nat) : Int) := rfl
  rw [h0, Swap_ints a 0 (a.length - 1) hne (by omega)]
  simp only []
  have hd := down_ints (swapN a 0 (a.length - 1)) 0 (a.length - 1)
    (by rw [length_swapN]; exact hlen) (by rw [length_swapN]; omega) (by unfold maxLen; omega)
  rw [length_swapN] at hd
  rw [hd]
  simp only []
  have hp := PopLast_ints (downN a.length (swapN a 0 (a.length - 1)) 0 (a.length - 1)).1
    (by rw [length_downN, length_swapN]; exact hlen) (by rw [length_downN, length_swapN]; exact hne)
  rw [length_downN, length_swapN] at hp
  exact hp

/-! ### Exchanges keep the elements -/

theorem ent_eq_getElem (a : List Int) (k : Nat) (hk : k < a.length) : ent a k = a[k] := by
  unfold ent; exact List.getD_eq_getElem a 0 hk

theorem perm_swapN (a : List Int) (i j : Nat) (hi : i < a.length) (hj : j < a.length) :
    (swapN a i j).Perm a := by
  rw [List.perm_iff_count]
  intro b
  unfold swapN
  rw [List.count_set _ _ _ _ (by simpa using hj), List.count_set _ _ _ _ hi,
    List.getElem_set, ent_eq_getElem a i hi, ent_eq_getElem a j hj]
  have hci : (if a[i] == b then 1 else 0) ≤ a.count b := by
    split
    · rename_i h
      have hb : a[i] = b := by simpa using h
      exact List.count_pos_iff.mpr (hb ▸ List.getElem_mem hi)
    · exact Nat.zero_le _
  by_cases hij : i = j
  · subst hij
    simp only [if_true]
    omega
  · simp only [hij, if_false]
    omega

/-! ### Basic facts about the loops -/

theorem child_cases (a : List Int) (i n : Nat) :
    child a i n = 2 * i + 1 ∨ (child a i n = 2 * i + 2 ∧ 2 * i + 2 < n) := by
  unfold child
  split
  · rename_i h; exact Or.inr ⟨rfl, h.1⟩
  · exact Or.inl rfl

theorem child_le_left (a : List Int) (i n : Nat) : ent a (child a i n) ≤ ent a (2 * i + 1) := by
  unfold child
  split
  · rename_i h; exact le_of_lt h.2
  · exact le_refl _

theorem child_le_right (a : List Int) (i n : Nat) (h : 2 * i + 2 < n) :
    ent a (child a i n) ≤ ent a (2 * i + 2) := by
  unfold child
  split
  · exact le_refl _
  · rename_i h2
    have : ¬ ent a (2 * i + 2) < ent a (2 * i + 1) := fun h3 => h2 ⟨h, h3⟩
    exact not_lt.mp this

theorem downN_succ (f : Nat) (a : List Int) (i n : Nat) :
    downN (f + 1) a i n =
      if n ≤ 2 * i + 1 then (a, i)
      else if ent a (child a i n) < ent a i then
        downN f (swapN a i (child a i n)) (child a i n) n
      else (a, i) := rfl

theorem upN_succ (f : Nat) (a : List Int) (j : Nat) :
    upN (f + 1) a j =
      if j = 0 then a
      else if ent a j < ent a ((j - 1) / 2) then
        upN f (swapN a ((j - 1) / 2) j) ((j - 1) / 2)
      else a := rfl

theorem downN_ge (f : Nat) : ∀ (a : List Int) (i n : Nat), i ≤ (downN f a i n).2 := by
  induction f with
  | zero => intro a i n; exact le_refl _
  | succ f ih =>
    intro a i n
    rw [downN_succ]
    split
    · exact le_refl _
    · split
      · have h := ih (swapN a i (child a i n)) (child a i n) n
        have hc := child_cases a i n
        omega
      · exact le_refl _

theorem downN_fix (f : Nat) (a : List Int) (i n : Nat) (h : (downN f a i n).2 = i) :
    (downN f a i n).1 = a := by
  cases f with
  | zero => rfl
  | succ f =>
    rw [downN_succ] at h ⊢
    split
    · rfl
    · rename_i h1
      rw [if_neg h1] at h
      split
      · rename_i h2
        rw [if_pos h2] at h
        have hge := downN_ge f (swapN a i (child a i n)) (child a i n) n
        have hc := child_cases a i n
        omega
      · rfl

theorem perm_downN (f : Nat) : ∀ (a : List Int) (i n : Nat), n ≤ a.length →
    (downN f a i n).1.Perm a := by
  induction f with
  | zero => intro a i n _; exact List.Perm.refl _
  | succ f ih =>
    intro a i n hn
    rw [downN_succ]
    split
    · exact List.Perm.refl _
    · split
      · have hc := child_cases a i n
        have hp := perm_swapN a i (child a i n) (by omega) (by omega)
        exact (ih _ _ n (by rw [length_swapN]; exact hn)).trans hp
      · exact List.Perm.refl _

theorem downN_out (f : Nat) : ∀ (a : List Int) (i n k : Nat), n ≤ a.length →
    (k < i ∨ n ≤ k) → ent (downN f a i n).1 k = ent a k := by
  induction f with
  | zero => intro a i n k _ _; rfl
  | succ f ih =>
    intro a i n k hn hk
    rw [downN_succ]
    split
    · rfl
    · split
      · have hc := child_cases a i n
        rw [ih _ _ n k (by rw [length_swapN]; exact hn) (by omega),
          ent_swapN a i _ k (by omega) (by omega)]
        have h1 : k ≠ child a i n := by omega
        have h2 : k ≠ i := by omega
        simp only [h1, h2, if_false]
      · rfl

theorem perm_upN (f : Nat) : ∀ (a : List Int) (j : Nat), j < a.length →
    (upN f a j).Perm a := by
  induction f with
  | zero => intro a j _; exact List.Perm.refl _
  | succ f ih =>
    intro a j hj
    rw [upN_succ]
    split
    · exact List.Perm.refl _
    · split
      · have hp := perm_swapN a ((j - 1) / 2) j (by omega) hj
        exact (ih _ _ (by rw [length_swapN]; omega)).trans hp
      · exact List.Perm.refl _

theorem upN_out (f : Nat) : ∀ (a : List Int) (j k : Nat), j < a.length → j < k →
    ent (upN f a j) k = ent a k := by
  induction f with
  | zero => intro a j k _ _; rfl
  | succ f ih =>
    intro a j k hj hk
    rw [upN_succ]
    split
    · rfl
    · split
      · rw [ih _ _ k (by rw [length_swapN]; omega) (by omega),
          ent_swapN a _ j k (by omega) hj]
        have h1 : k ≠ j := by omega
        have h2 : k ≠ (j - 1) / 2 := by omega
        simp only [h1, h2, if_false]
      · rfl

theorem perm_initN (k : Nat) : ∀ (a : List Int) (n : Nat), n ≤ a.length →
    (initN k a n).Perm a := by
  induction k with
  | zero => intro a n _; exact List.Perm.refl _
  | succ k ih =>
    intro a n hn
    rw [initN]
    exact (ih _ n (by rw [length_downN]; exact hn)).trans (perm_downN _ a k n hn)

/-! ### Sift-down restores the order -/

theorem down_step (a : List Int) (n lo i : Nat) (hn : n ≤ a.length) (hlo : lo ≤ i)
    (hc : ¬ n ≤ 2 * i + 1) (hlt : ent a (child a i n) < ent a i)
    (hB : Below a n lo i) (hS : Skip a n lo i) :
    Below (swapN a i (child a i n)) n lo (child a i n) ∧
    Skip (swapN a i (child a i n)) n lo (child a i n) ∧
    Top (swapN a i (child a i n)) n lo (child a i n) := by
  have hj := child_cases a i n
  have hi : i < a.length := by omega
  have hjl : child a i n < a.length := by omega
  have hl := child_le_left a i n
  have hr := child_le_right a i n
  refine ⟨?_, ?_, ?_⟩
  · intro c c0 cn clo cp cj
    rw [ent_swapN a i _ _ hi hjl, ent_swapN a i _ _ hi hjl]
    simp only [cp, cj, if_false]
    by_cases hci : c = i
    · subst hci
      have hp : (c - 1) / 2 ≠ c := by omega
      simp only [hp, if_false, if_true]
      rcases hj with h1 | ⟨h2, h3⟩
      · exact hS (child a c n) (by omega) (by omega) (by omega) c0 clo
      · exact hS (child a c n) (by omega) (by omega) (by omega) c0 clo
    · simp only [hci, if_false]
      by_cases hpi : (c - 1) / 2 = i
      · simp only [hpi, if_true]
        have hcc : c = 2 * i + 1 ∨ c = 2 * i + 2 := by omega
        rcases hcc with h | h
        · rw [h]; exact hl
        · rw [h]; exact hr (by omega)
      · simp only [hpi, if_false]
        exact hB c c0 cn clo hpi hci
  · intro c c0 cn cp j0 jlo
    rw [ent_swapN a i _ _ hi hjl, ent_swapN a i _ _ hi hjl]
    have hpj : (child a i n - 1) / 2 = i := by omega
    have h1 : c ≠ child a i n := by omega
    have h2 : c ≠ i := by omega
    have h3 : i ≠ child a i n := by omega
    simp only [hpj, h1, h2, h3, if_false, if_true]
    have := hB c c0 cn (by omega) (by omega) h2
    rw [cp] at this
    exact this
  · intro j0 jn jlo
    rw [ent_swapN a i _ _ hi hjl, ent_swapN a i _ _ hi hjl]
    have hpj : (child a i n - 1) / 2 = i := by omega
    have h3 : i ≠ child a i n := by omega
    simp only [hpj, h3, if_false, if_true]
    exact le_of_lt hlt

theorem heapFrom_of_kids (a : List Int) (n lo i : Nat) (hB : Below a n lo i)
    (hT : Top a n lo i) (hK : Kids a n i) : HeapFrom a n lo := by
  intro c c0 cn clo
  by_cases hci : c = i
  · subst hci; exact hT c0 cn clo
  · by_cases hpi : (c - 1) / 2 = i
    · rw [hpi]; exact hK c c0 cn hpi
    · exact hB c c0 cn clo hpi hci

theorem kids_of_leaf (a : List Int) (n i : Nat) (h : n ≤ 2 * i + 1) : Kids a n i := by
  intro c c0 cn cp
  omega

theorem kids_of_not_lt (a : List Int) (n i : Nat) (h : ¬ ent a (child a i n) < ent a i) :
    Kids a n i := by
  intro c c0 cn cp
  have hcc : c = 2 * i + 1 ∨ c = 2 * i + 2 := by omega
  have h1 := not_lt.mp h
  rcases hcc with h2 | h2
  · rw [h2]; exact le_trans h1 (child_le_left a i n)
  · rw [h2]; exact le_trans h1 (child_le_right a i n (by omega))

theorem downN_heap (f : Nat) : ∀ (a : List Int) (n lo i : Nat), n ≤ a.length → lo ≤ i →
    n ≤ i + f + 1 → Below a n lo i → Skip a n lo i → Top a n lo i →
    HeapFrom (downN f a i n).1 n lo := by
  induction f with
  | zero =>
    intro a n lo i hn hlo hf hB hS hT
    exact heapFrom_of_kids a n lo i hB hT (kids_of_leaf a n i (by omega))
  | succ f ih =>
    intro a n lo i hn hlo hf hB hS hT
    rw [downN_succ]
    split
    · rename_i h
      exact heapFrom_of_kids a n lo i hB hT (kids_of_leaf a n i h)
    · rename_i hc
      split
      · rename_i hlt
        obtain ⟨hB', hS', hT'⟩ := down_step a n lo i hn hlo hc hlt hB hS
        have hj := child_cases a i n
        exact ih _ n lo _ (by rw [length_swapN]; exact hn) (by omega) (by omega) hB' hS' hT'
      · rename_i hlt
        exact heapFrom_of_kids a n lo i hB hT (kids_of_not_lt a n i hlt)

/-- Sift-down from an index whose own value is arbitrary: either nothing moved and the
index is in order with its children, or the order is restored everywhere. -/
theorem downN_top (f : Nat) (a : List Int) (n i : Nat) (hn : n ≤ a.length)
    (hf : n ≤ i + f + 1) (hB : Below a n 0 i) (hS : Skip a n 0 i) :
    ((downN f a i n).2 = i → (downN f a i n).1 = a ∧ Kids a n i) ∧
    (i < (downN f a i n).2 → HeapFrom (downN f a i n).1 n 0) := by
  cases f with
  | zero =>
    refine ⟨fun _ => ⟨rfl, kids_of_leaf a n i (by omega)⟩, fun h => ?_⟩
    simp [downN] at h
  | succ f =>
    rw [downN_succ]
    split
    · rename_i h
      exact ⟨fun _ => ⟨rfl, kids_of_leaf a n i h⟩, fun h2 => absurd h2 (lt_irrefl _)⟩
    · rename_i hc
      split
      · rename_i hlt
        have hj := child_cases a i n
        have hge := downN_ge f (swapN a i (child a i n)) (child a i n) n
        refine ⟨fun h => by omega, fun _ => ?_⟩
        obtain ⟨hB', hS', hT'⟩ := down_step a n 0 i hn (Nat.zero_le _) hc hlt hB hS
        exact downN_heap f _ n 0 _ (by rw [length_swapN]; exact hn) (Nat.zero_le _)
          (by omega) hB' hS' hT'
      · rename_i hlt
        exact ⟨fun _ => ⟨rfl, kids_of_not_lt a n i hlt⟩, fun h2 => absurd h2 (lt_irrefl _)⟩

/-! ### Sift-up restores the order -/

theorem upN_heap (f : Nat) : ∀ (a : List Int) (n j : Nat), n ≤ a.length → j < n → j ≤ f →
    Below a n 0 j → Skip a n 0 j → Kids a n j → HeapFrom (upN f a j) n 0 := by
  induction f with
  | zero =>
    intro a n j hn hj hf hB hS hK
    have h0 : j = 0 := by omega
    subst h0
    exact heapFrom_of_kids a n 0 0 hB (fun h => absurd h (lt_irrefl _)) hK
  | succ f ih =>
    intro a n j hn hj hf hB hS hK
    rw [upN_succ]
    split
    · rename_i h0
      subst h0
      exact heapFrom_of_kids a n 0 0 hB (fun h => absurd h (lt_irrefl _)) hK
    · rename_i h0
      split
      · rename_i hlt
        have hjl : j < a.length := by omega
        have hpl : (j - 1) / 2 < a.length := by omega
        refine ih _ n _ (by rw [length_swapN]; exact hn) (by omega) (by omega) ?_ ?_ ?_
        · intro c c0 cn _ cp cne
          rw [ent_swapN a _ j _ hpl hjl, ent_swapN a _ j _ hpl hjl]
          by_cases hcj : c = j
          · exact absurd (hcj ▸ rfl) cp
          · simp only [hcj, cne, if_false]
            by_cases hpj : (c - 1) / 2 = j
            · simp only [hpj, if_true]
              exact hS c c0 cn hpj (by omega) (Nat.zero_le _)
            · simp only [hpj, cp, if_false]
              exact hB c c0 cn (Nat.zero_le _) hpj hcj
        · intro c c0 cn cp p0 _
          rw [ent_swapN a _ j _ hpl hjl, ent_swapN a _ j _ hpl hjl]
          have h1 : ((j - 1) / 2 - 1) / 2 ≠ j := by omega
          have h2 : ((j - 1) / 2 - 1) / 2 ≠ (j - 1) / 2 := by omega
          simp only [h1, h2, if_false]
          have hgp := hB ((j - 1) / 2) p0 (by omega) (Nat.zero_le _) (by omega) (by omega)
          by_cases hcj : c = j
          · simp only [hcj, if_true]
            exact hgp
          · have hcp : c ≠ (j - 1) / 2 := by omega
            simp only [hcj, hcp, if_false]
            have := hB c c0 cn (Nat.zero_le _) (by omega) hcj
            rw [cp] at this
            exact le_trans hgp this
        · intro c c0 cn cp
          rw [ent_swapN a _ j _ hpl hjl, ent_swapN a _ j _ hpl hjl]
          have h1 : (j - 1) / 2 ≠ j := by omega
          simp only [h1, if_false, if_true]
          by_cases hcj : c = j
          · simp only [hcj, if_true]
            exact le_of_lt hlt
          · have hcp : c ≠ (j - 1) / 2 := by omega
            simp only [hcj, hcp, if_false]
            have := hB c c0 cn (Nat.zero_le _) (by omega) hcj
            rw [cp] at this
            exact le_trans (le_of_lt hlt) this
      · rename_i hlt
        exact heapFrom_of_kids a n 0 j hB (fun _ _ _ => not_lt.mp hlt) hK

/-! ### The public operations on `[]int`, in closed form -/

theorem bind_ok {α β : Type} (x : α) (f : α → Except Fault β) :
    (Except.ok x : Except Fault α).bind f = f x := rfl

theorem repair_ints (b : List Int) (i n : Nat) (hlen : b.length < maxLen) (hn : n ≤ b.length)
    (hi : i < b.length) (k : Dyn → Except Fault (Any × Dyn)) :
    (do
      let (h, moved) ← down (.ints b) (i : Int) (n : Int)
      if !moved then do
        let h ← up h (i : Int)
        k h
      else k h) = k (.ints (repairN b i n)) := by
  rw [down_ints b i n hlen hn (by omega)]
  simp only [bind, bind_ok, repairN]
  by_cases hm : i < (downN b.length b i n).2
  · simp only [hm, decide_True, Bool.not_true, Bool.false_eq_true, if_false, if_true]
  · simp only [hm, decide_False, Bool.not_false, if_true, if_false]
    have hu := up_ints (downN b.length b i n).1 i (by rw [length_downN]; exact hlen)
      (by rw [length_downN]; exact hi)
    rw [length_downN] at hu
    rw [hu, bind_ok]

theorem Remove_ints (a : List Int) (i : Nat) (hlen : a.length < maxLen) (hi : i < a.length) :
    Remove (.ints a) (i : Int) =
      .ok (.int (ent (removeN a i) (a.length - 1)), .ints (removeN a i).dropLast) := by
  unfold Remove
  have hw : wrap ((a.length : Int) - 1) = ((a.length - 1 : Nat) : Int) := by
    unfold wrap; unfold maxLen at hlen; omega
  simp only [Len, bind, bind_ok, hw, ne_eq, Nat.cast_inj, removeN]
  by_cases hni : a.length - 1 = i
  · simp only [hni, not_true_eq_false, if_false, if_true]
    have hp := PopLast_ints a hlen (by omega)
    rw [hni] at hp
    exact hp
  · simp only [hni, not_false_eq_true, if_true, if_false]
    rw [Swap_ints a i (a.length - 1) hi (by omega), bind_ok]
    have hr := repair_ints (swapN a i (a.length - 1)) i (a.length - 1)
      (by rw [length_swapN]; exact hlen) (by rw [length_swapN]; omega)
      (by rw [length_swapN]; exact hi) PopLast
    simp only [bind] at hr
    rw [hr]
    have hl : (repairN (swapN a i (a.length - 1)) i (a.length - 1)).length = a.length := by
      unfold repairN
      split
      · rw [length_downN, length_swapN]
      · rw [length_upN, length_downN, length_swapN]
    have hp := PopLast_ints (repairN (swapN a i (a.length - 1)) i (a.length - 1))
      (by rw [hl]; exact hlen) (by rw [hl]; omega)
    rw [hl] at hp
    exact hp

theorem Fix_ints (b : List Int) (i : Nat) (hlen : b.length < maxLen) (hi : i < b.length) :
    Fix (.ints b) (i : Int) = .ok (.ints (repairN b i b.length)) := by
  unfold Fix
  simp only [Len, bind]
  rw [bind_ok, down_ints b i b.length hlen (le_refl _) (by omega), bind_ok]
  unfold repairN
  by_cases hm : i < (downN b.length b i b.length).2
  · simp only [hm, decide_True, Bool.not_true, Bool.false_eq_true, if_false, if_true]
    rfl
  · simp only [hm, decide_False, Bool.not_false, if_true, if_false]
    have hu := up_ints (downN b.length b i b.length).1 i (by rw [length_downN]; exact hlen)
      (by rw [length_downN]; exact hi)
    rw [length_downN] at hu
    exact hu

/-! ### From the loop invariants to the heap invariant -/

theorem heapInv_iff (a : List Int) : HeapInv a ↔ HeapFrom a a.length 0 := by
  constructor
  · intro h c c0 cn _
    have hp : (c - 1) / 2 < a.length := by omega
    have := h ((c - 1) / 2) hp c cn (by omega)
    rw [ent_eq_getElem a c cn, ent_eq_getElem a _ hp]
    exact not_lt.mp this
  · intro h i hi c hc hci
    have := h c (by omega) hc (Nat.zero_le _)
    have hp : (c - 1) / 2 = i := by omega
    rw [hp, ent_eq_getElem a c hc, ent_eq_getElem a i hi] at this
    exact not_lt.mpr this

theorem ent_dropLast (a : List Int) (k : Nat) (hk : k < a.length - 1) :
    ent a.dropLast k = ent a k := by
  have h1 : k < a.dropLast.length := by simpa using hk
  rw [ent_eq_getElem _ _ h1, ent_eq_getElem a k (by omega), List.getElem_dropLast]

theorem heapInv_dropLast (a : List Int) (h : HeapFrom a (a.length - 1) 0) :
    HeapInv a.dropLast := by
  rw [heapInv_iff]
  intro c c0 cn _
  have hcn : c < a.length - 1 := by simpa using cn
  rw [ent_dropLast a c hcn, ent_dropLast a _ (by omega)]
  exact h c c0 hcn (Nat.zero_le _)

theorem heapFrom_mono (a : List Int) (n m lo : Nat) (hmn : m ≤ n) (h : HeapFrom a n lo) :
    HeapFrom a m lo :=
  fun c c0 cm clo => h c c0 (by omega) clo

/-- In a heap the root is a least element. -/
theorem root_le (a : List Int) (n : Nat) (h : HeapFrom a n 0) :
    ∀ k, k < n → ent a 0 ≤ ent a k := by
  intro k
  induction k using Nat.strong_induction_on with
  | _ k ih =>
    intro hk
    rcases Nat.eq_zero_or_pos k with h0 | h0
    · subst h0; exact le_refl _
    · exact le_trans (ih ((k - 1) / 2) (by omega) (by omega)) (h k h0 hk (Nat.zero_le _))

theorem heapFrom_initN (k : Nat) : ∀ (a : List Int) (n : Nat), n ≤ a.length →
    HeapFrom a n k → HeapFrom (initN k a n) n 0 := by
  induction k with
  | zero => intro a n _ h; exact h
  | succ k ih =>
    intro a n hn h
    rw [initN]
    refine ih _ n (by rw [length_downN]; exact hn) ?_
    refine downN_heap a.length a n k k hn (le_refl _) (by omega) ?_ ?_ ?_
    · intro c c0 cn clo cp _
      exact h c c0 cn (by omega)
    · intro c _ _ _ k0 klo
      omega
    · intro k0 _ klo
      omega

/-- The repair step restores the order when only index `i` is out of place. -/
theorem repair_heap (b : List Int) (i n : Nat) (hn : n ≤ b.length) (hi : i < n)
    (hB : Below b n 0 i) (hS : Skip b n 0 i) : HeapFrom (repairN b i n) n 0 := by
  have ht := downN_top b.length b n i hn (by omega) hB hS
  unfold repairN
  split
  · rename_i hm
    exact ht.2 hm
  · rename_i hm
    have hge := downN_ge b.length b i n
    obtain ⟨he, hK⟩ := ht.1 (by omega)
    rw [he]
    exact upN_heap b.length b n i hn hi (by omega) hB hS hK

theorem length_repairN (b : List Int) (i n : Nat) : (repairN b i n).length = b.length := by
  unfold repairN
  split
  · rw [length_downN]
  · rw [length_upN, length_downN]

theorem perm_repairN (b : List Int) (i n : Nat) (hn : n ≤ b.length) (hi : i < b.length) :
    (repairN b i n).Perm b := by
  unfold repairN
  split
  · exact perm_downN _ b i n hn
  · exact (perm_upN _ _ i (by rw [length_downN]; exact hi)).trans (perm_downN _ b i n hn)

theorem repairN_out (b : List Int) (i n k : Nat) (hn : n ≤ b.length) (hi : i < n)
    (hk : n ≤ k) : ent (repairN b i n) k = ent b k := by
  unfold repairN
  split
  · exact downN_out _ b i n k hn (Or.inr hk)
  · rw [upN_out _ _ i k (by rw [length_downN]; omega) (by omega)]
    exact downN_out _ b i n k hn (Or.inr hk)

theorem length_removeN (a : List Int) (i : Nat) : (removeN a i).length = a.length := by
  unfold removeN
  split
  · rfl
  · rw [length_repairN, length_swapN]

theorem removeN_last (a : List Int) (i : Nat) (hi : i < a.length) :
    ent (removeN a i) (a.length - 1) = ent a i := by
  unfold removeN
  split
  · rename_i h; rw [h]
  · rename_i h
    rw [repairN_out _ i _ _ (by rw [length_swapN]; omega) (by omega) (le_refl _),
      ent_swapN a i _ _ hi (by omega)]
    simp

theorem perm_removeN (a : List Int) (i : Nat) (hi : i < a.length) :
    (removeN a i).Perm a := by
  unfold removeN
  split
  · exact List.Perm.refl _
  · exact (perm_repairN _ i _ (by rw [length_swapN]; omega) (by rw [length_swapN]; exact hi)).trans
      (perm_swapN a i _ hi (by omega))

/-- Removing index `i` of a heap leaves the first `len - 1` entries in heap order. -/
theorem heapFrom_removeN (a : List Int) (i : Nat) (hi : i < a.length) (h : HeapInv a) :
    HeapFrom (removeN a i) (a.length - 1) 0 := by
  rw [heapInv_iff] at h
  unfold removeN
  split
  · exact heapFrom_mono a _ _ 0 (by omega) h
  · rename_i hne
    have hil : i < a.length - 1 := by omega
    have hnl : a.length - 1 < a.length := by omega
    refine repair_heap _ i _ (by rw [length_swapN]; omega) hil ?_ ?_
    · intro c c0 cn _ cp ci
      rw [ent_swapN a i _ _ hi hnl, ent_swapN a i _ _ hi hnl]
      have h1 : c ≠ a.length - 1 := by omega
      have h2 : (c - 1) / 2 ≠ a.length - 1 := by omega
      simp only [h1, h2, cp, ci, if_false]
      exact h c c0 (by omega) (Nat.zero_le _)
    · intro c c0 cn cp i0 _
      rw [ent_swapN a i _ _ hi hnl, ent_swapN a i _ _ hi hnl]
      have h1 : c ≠ a.length - 1 := by omega
      have h2 : (i - 1) / 2 ≠ a.length - 1 := by omega
      have h3 : c ≠ i := by omega
      have h4 : (i - 1) / 2 ≠ i := by omega
      simp only [h1, h2, h3, h4, if_false]
      have e1 := h i i0 hi (Nat.zero_le _)
      have e2 := h c c0 (by omega) (Nat.zero_le _)
      rw [cp] at e2
      exact le_trans e1 e2

theorem ent_append_left (a l : List Int) (k : Nat) (hk : k < a.length) :
    ent (a ++ l) k = ent a k := by
  rw [ent_eq_getElem _ _ (by simp; omega), ent_eq_getElem a k hk, List.getElem_append_left hk]

theorem ent_set (a : List Int) (i k : Nat) (v : Int) (hi : i < a.length) :
    ent (a.set i v) k = if k = i then v else ent a k := by
  unfold ent
  simp only [List.getD_eq_getElem?_getD, List.getElem?_set]
  by_cases h : i = k
  · subst h; simp [hi]
  · simp [h, Ne.symm h]

theorem list_ext_ent (a b : List Int) (hl : a.length = b.length)
    (h : ∀ k, k < a.length → ent a k = ent b k) : a = b := by
  apply List.ext_getElem hl
  intro k h1 h2
  have := h k h1
  rwa [ent_eq_getElem a k h1, ent_eq_getElem b k h2] at this

theorem swapN_self (a : List Int) (i : Nat) (hi : i < a.length) : swapN a i i = a := by
  apply list_ext_ent _ _ (length_swapN a i i)
  intro k _
  rw [ent_swapN a i i k hi hi]
  split
  · rename_i h; rw [h]
  · rfl

theorem upN_zero (f : Nat) (a : List Int) : upN f a 0 = a := by
  cases f with
  | zero => rfl
  | succ f => rfl

theorem removeN_zero (a : List Int) (hne : 0 < a.length) :
    removeN a 0 = (downN a.length (swapN a 0 (a.length - 1)) 0 (a.length - 1)).1 := by
  unfold removeN
  split
  · rename_i h
    rw [h, swapN_self a 0 hne]
    obtain ⟨f, hf⟩ : ∃ f, a.length = f + 1 := ⟨a.length - 1, by omega⟩
    rw [hf, downN_succ]
    simp
  · unfold repairN
    rw [length_swapN]
    split
    · rfl
    · exact upN_zero _ _

theorem Pop_ints_removeN (a : List Int) (hlen : a.length < maxLen) (hne : 0 < a.length) :
    Pop (.ints a) =
      .ok (.int (ent (removeN a 0) (a.length - 1)), .ints (removeN a 0).dropLast) := by
  rw [removeN_zero a hne, Pop_ints a hlen hne]

theorem heapFrom_push (a : List Int) (x : Int) (h : HeapInv a) :
    HeapFrom (upN (a.length + 1) (a ++ [x]) a.length) (a.length + 1) 0 := by
  rw [heapInv_iff] at h
  refine upN_heap _ _ _ _ (by simp) (by omega) (by omega) ?_ ?_ ?_
  · intro c c0 cn _ cp ci
    rw [ent_append_left a _ c (by omega), ent_append_left a _ _ (by omega)]
    exact h c c0 (by omega) (Nat.zero_le _)
  · intro c c0 cn cp _ _
    omega
  · intro c c0 cn cp
    omega

theorem heapFrom_fix (a : List Int) (i : Nat) (v : Int) (hi : i < a.length) (h : HeapInv a) :
    HeapFrom (repairN (a.set i v) i (a.set i v).length) (a.set i v).length 0 := by
  rw [heapInv_iff] at h
  have hl : (a.set i v).length = a.length := List.length_set _ _ _
  rw [hl]
  refine repair_heap _ i _ (by rw [hl]) hi ?_ ?_
  · intro c c0 cn _ cp ci
    rw [ent_set a i _ v hi, ent_set a i _ v hi]
    simp only [cp, ci, if_false]
    exact h c c0 cn (Nat.zero_le _)
  · intro c c0 cn cp i0 _
    rw [ent_set a i _ v hi, ent_set a i _ v hi]
    have h3 : c ≠ i := by omega
    have h4 : (i - 1) / 2 ≠ i := by omega
    simp only [h3, h4, if_false]
    have e1 := h i i0 hi (Nat.zero_le _)
    have e2 := h c c0 cn (Nat.zero_le _)
    rw [cp] at e2
    exact le_trans e1 e2

/-! ### Removal keeps the other elements -/

theorem dropLast_concat_ent (r : List Int) (hne : 0 < r.length) :
    r.dropLast ++ [ent r (r.length - 1)] = r := by
  have hnil : r ≠ [] := by
    intro h; rw [h] at hne; exact absurd hne (lt_irrefl _)
  rw [ent_eq_getElem r _ (by omega), ← List.getLast_eq_getElem r hnil]
  exact List.dropLast_append_getLast hnil

theorem perm_remove (a : List Int) (i : Nat) (hi : i < a.length) :
    (ent a i :: (removeN a i).dropLast).Perm a := by
  have hl := length_removeN a i
  have hc := dropLast_concat_ent (removeN a i) (by omega)
  rw [hl, removeN_last a i hi] at hc
  have h1 : (ent a i :: (removeN a i).dropLast).Perm ((removeN a i).dropLast ++ [ent a i]) :=
    (List.perm_append_singleton _ _).symm
  rw [hc] at h1
  exact h1.trans (perm_removeN a i hi)

theorem length_remove (a : List Int) (i : Nat) :
    (removeN a i).dropLast.length = a.length - 1 := by
  rw [List.length_dropLast, length_removeN]

/-! ### Pushing a list, then popping everything -/

theorem pushAll_ints (l : List Int) : ∀ (a : List Int), a.length + l.length < maxLen →
    HeapInv a → ∃ a', pushAll l (.ints a) = .ok (.ints a') ∧ HeapInv a' ∧ a'.Perm (a ++ l) := by
  induction l with
  | nil =>
    intro a _ h
    exact ⟨a, rfl, h, by simp⟩
  | cons x xs ih =>
    intro a hlen h
    have hlen' : a.length + 1 + xs.length < maxLen := by
      simp only [List.length_cons] at hlen; omega
    have hp := Push_ints a x (by omega)
    have hh : HeapInv (upN (a.length + 1) (a ++ [x]) a.length) := by
      rw [heapInv_iff, length_upN]
      simpa using heapFrom_push a x h
    have hl : (upN (a.length + 1) (a ++ [x]) a.length).length = a.length + 1 := by
      rw [length_upN]; simp
    obtain ⟨a', e, hinv, hperm⟩ := ih _ (by rw [hl]; exact hlen') hh
    refine ⟨a', ?_, hinv, ?_⟩
    · rw [pushAll]
      simp only [bind]
      rw [hp, bind_ok]
      exact e
    · have h1 : (upN (a.length + 1) (a ++ [x]) a.length).Perm (a ++ [x]) :=
        perm_upN _ _ _ (by simp)
      have h2 := hperm.trans (h1.append_right xs)
      simpa using h2

theorem popN_ints (k : Nat) : ∀ (a : List Int), a.length = k → a.length < maxLen →
    HeapInv a → ∃ out : List Int, popN k (.ints a) = .ok (out.map Any.int, .ints []) ∧
      out.Sorted (· ≤ ·) ∧ out.Perm a := by
  induction k with
  | zero =>
    intro a hk _ _
    have ha : a = [] := List.eq_nil_of_length_eq_zero hk
    subst ha
    exact ⟨[], rfl, List.sorted_nil, List.Perm.refl _⟩
  | succ k ih =>
    intro a hk hlen h
    have hne : 0 < a.length := by omega
    have hp := Pop_ints_removeN a hlen hne
    have hh : HeapInv (removeN a 0).dropLast := by
      apply heapInv_dropLast
      rw [length_removeN]
      exact heapFrom_removeN a 0 hne h
    have hl := length_remove a 0
    obtain ⟨out, e, hs, hperm⟩ := ih _ (by omega) (by omega) hh
    have hpa := perm_remove a 0 hne
    refine ⟨ent a 0 :: out, ?_, ?_, ?_⟩
    · rw [popN]
      simp only [bind]
      rw [hp, bind_ok, removeN_last a 0 hne]
      simp only []
      rw [e, bind_ok]
      rfl
    · refine List.sorted_cons.mpr ⟨?_, hs⟩
      intro y hy
      have hy1 : y ∈ (removeN a 0).dropLast := hperm.subset hy
      have hy2 : y ∈ a := hpa.subset (List.mem_cons_of_mem _ hy1)
      obtain ⟨j, hj, rfl⟩ := List.getElem_of_mem hy2
      rw [← ent_eq_getElem a j hj]
      exact root_le a a.length ((heapInv_iff a).mp h) j hj
    · exact (List.Perm.cons _ hperm).trans hpa

theorem removeMid_ints (k : Nat) : ∀ (a : List Int), a.length < k → a.length < maxLen →
    ∃ out : List Int, removeMid k (.ints a) = .ok (out.map Any.int, .ints []) ∧ out.Perm a := by
  induction k with
  | zero => intro a hk _; exact absurd hk (Nat.not_lt_zero _)
  | succ k ih =>
    intro a hk hlen
    rcases Nat.eq_zero_or_pos a.length with h0 | h0
    · have ha : a = [] := List.eq_nil_of_length_eq_zero h0
      subst ha
      exact ⟨[], rfl, List.Perm.refl _⟩
    · have hm : (a.length - 1) / 2 < a.length := by omega
      have hr := Remove_ints a ((a.length - 1) / 2) hlen hm
      have hl := length_remove a ((a.length - 1) / 2)
      obtain ⟨out, e, hperm⟩ := ih (removeN a ((a.length - 1) / 2)).dropLast (by omega) (by omega)
      refine ⟨ent a ((a.length - 1) / 2) :: out, ?_, ?_⟩
      · rw [removeMid]
        simp only [bind, Len]
        rw [bind_ok]
        have hpos : ((a.length : Nat) : Int) > 0 := by omega
        rw [if_pos hpos, parent_nat a.length hlen, hr, bind_ok,
          removeN_last a _ hm]
        simp only []
        rw [e, bind_ok]
        rfl
      · exact (List.Perm.cons _ hperm).trans (perm_remove a _ hm)

/-! ## Properties of the public operations -/

/-- C1: for every `[]int` value `h` (of a length a Go `int` can hold), `Init(h)` returns
`nil` and leaves `h` satisfying the heap invariant. -/
theorem Init_establishes_heap (a : List Int) (hlen : a.length < maxLen) :
    ∃ a', Init (.ints a) = .ok (none, .ints a') ∧ HeapInv a' := by
  refine ⟨_, Init_ints a hlen, ?_⟩
  rw [heapInv_iff, length_initN]
  refine heapFrom_initN _ a a.length (le_refl _) ?_
  intro c c0 cn clo
  omega

theorem Init_establishes_heap_witness :
    ∃ a', Init (.ints [5, 7, 1, 3]) = .ok (none, .ints a') ∧ HeapInv a' :=
  Init_establishes_heap [5, 7, 1, 3] (by decide)

/-- C2: if `h` satisfies the heap invariant (the empty slice included) then `Push(h, x)`
completes and leaves `h` satisfying the heap invariant. -/
theorem Push_preserves_heap (a : List Int) (x : Int) (hlen : a.length + 1 < maxLen)
    (h : HeapInv a) :
    ∃ a', Push (.ints a) (.int x) = .ok (.ints a') ∧ HeapInv a' := by
  refine ⟨_, Push_ints a x hlen, ?_⟩
  rw [heapInv_iff, length_upN]
  simpa using heapFrom_push a x h

theorem Push_preserves_heap_witness :
    ∃ a', Push (.ints [1, 3, 5, 7]) (.int 3) = .ok (.ints a') ∧ HeapInv a' :=
  Push_preserves_heap [1, 3, 5, 7] 3 (by decide) (by decide)

/-- C3: on a non-empty heap `Pop` returns the element that was at index 0, and that
element is less than or equal to every element the slice held. -/
theorem Pop_returns_minimum (a : List Int) (hlen : a.length < maxLen) (hne : 0 < a.length)
    (h : HeapInv a) :
    ∃ v a', Pop (.ints a) = .ok (.int v, .ints a') ∧ a[0]? = some v ∧ ∀ x ∈ a, v ≤ x := by
  refine ⟨_, _, Pop_ints_removeN a hlen hne, ?_, ?_⟩
  · rw [removeN_last a 0 hne, ent_eq_getElem a 0 hne, List.getElem?_eq_getElem hne]
  · intro x hx
    obtain ⟨k, hk, rfl⟩ := List.getElem_of_mem hx
    rw [removeN_last a 0 hne, ← ent_eq_getElem a k hk]
    exact root_le a a.length ((heapInv_iff a).mp h) k hk

theorem Pop_returns_minimum_witness :
    ∃ v a', Pop (.ints [1, 3, 5, 7, 3]) = .ok (.int v, .ints a') ∧
      ([1, 3, 5, 7, 3] : List Int)[0]? = some v ∧ ∀ x ∈ ([1, 3, 5, 7, 3] : List Int), v ≤ x :=
  Pop_returns_minimum [1, 3, 5, 7, 3] (by decide) (by decide) (by decide)

/-- C4: on a non-empty heap `Pop` leaves the remaining slice satisfying the heap
invariant. -/
theorem Pop_preserves_heap (a : List Int) (hlen : a.length < maxLen) (hne : 0 < a.length)
    (h : HeapInv a) :
    ∃ v a', Pop (.ints a) = .ok (.int v, .ints a') ∧ HeapInv a' := by
  refine ⟨_, _, Pop_ints_removeN a hlen hne, ?_⟩
  apply heapInv_dropLast
  rw [length_removeN]
  exact heapFrom_removeN a 0 hne h

theorem Pop_preserves_heap_witness :
    ∃ v a', Pop (.ints [1, 3, 5, 7, 3]) = .ok (.int v, .ints a') ∧ HeapInv a' :=
  Pop_preserves_heap [1, 3, 5, 7, 3] (by decide) (by decide) (by decide)

/-- C5: for a heap `h` and an index `0 <= i < len(h)`, `Remove(h, i)` completes and leaves
the remaining slice satisfying the heap invariant. -/
theorem Remove_preserves_heap (a : List Int) (i : Int) (hlen : a.length < maxLen)
    (h0 : 0 ≤ i) (hi : i < a.length) (h : HeapInv a) :
    ∃ v a', Remove (.ints a) i = .ok (.int v, .ints a') ∧ HeapInv a' := by
  obtain ⟨k, rfl⟩ := Int.eq_ofNat_of_zero_le h0
  have hk : k < a.length := by omega
  refine ⟨_, _, Remove_ints a k hlen hk, ?_⟩
  apply heapInv_dropLast
  rw [length_removeN]
  exact heapFrom_removeN a k hk h

theorem Remove_preserves_heap_witness :
    ∃ v a', Remove (.ints [0, 1, 2, 3, 4, 5, 6, 7, 8, 9]) 4 = .ok (.int v, .ints a') ∧
      HeapInv a' :=
  Remove_preserves_heap [0, 1, 2, 3, 4, 5, 6, 7, 8, 9] 4 (by decide) (by decide) (by decide)
    (by decide)

/-- C6: if `h` is a heap in which the element at one index `0 <= i < len(h)` has been
overwritten with an arbitrary int, `Fix(h, i)` completes and leaves `h` satisfying the heap
invariant. -/
theorem Fix_restores_heap (a : List Int) (i : Int) (v : Int) (hlen : a.length < maxLen)
    (h0 : 0 ≤ i) (hi : i < a.length) (h : HeapInv a) :
    ∃ a', Fix (.ints (a.set i.toNat v)) i = .ok (.ints a') ∧ HeapInv a' := by
  obtain ⟨k, rfl⟩ := Int.eq_ofNat_of_zero_le h0
  have hk : k < a.length := by omega
  simp only [Int.toNat_ofNat]
  have hl : (a.set k v).length = a.length := List.length_set _ _ _
  refine ⟨_, Fix_ints (a.set k v) k (by rw [hl]; exact hlen) (by rw [hl]; exact hk), ?_⟩
  rw [heapInv_iff, length_repairN]
  exact heapFrom_fix a k v hk h

theorem Fix_restores_heap_witness :
    ∃ a', Fix (.ints ([10, 20, 30, 40].set (0 : Int).toNat 210)) 0 = .ok (.ints a') ∧
      HeapInv a' :=
  Fix_restores_heap [10, 20, 30, 40] 0 210 (by decide) (by decide) (by decide) (by decide)

/-- C7: pushing the elements of any list `l` one at a time onto an empty slice and then
calling `Pop` `len(l)` times returns the elements of `l` in non-decreasing order, that is
exactly the sorted list of `l`, and leaves the slice empty. -/
theorem push_then_pop_sorts (l : List Int) (hlen : l.length < maxLen) :
    ∃ out : List Int,
      (pushAll l (.ints []) >>= popN l.length) = .ok (out.map Any.int, .ints []) ∧
      out.Sorted (· ≤ ·) ∧ out.Perm l ∧ out = l.insertionSort (· ≤ ·) := by
  have hnil : HeapInv [] := by decide
  obtain ⟨a, e1, hinv, hperm⟩ := pushAll_ints l [] (by simpa using hlen) hnil
  have hal : a.length = l.length := by simpa using hperm.length_eq
  obtain ⟨out, e2, hs, hp⟩ := popN_ints l.length a hal (by omega) hinv
  have hpl : out.Perm l := hp.trans (by simpa using hperm)
  refine ⟨out, ?_, hs, hpl, ?_⟩
  · rw [e1]
    exact e2
  · exact List.eq_of_perm_of_sorted (hpl.trans (List.perm_insertionSort _ l).symm) hs
      (List.sorted_insertionSort _ l)

theorem push_then_pop_sorts_witness :
    ∃ out : List Int,
      (pushAll [3, 1, 2, 1] (.ints []) >>= popN [3, 1, 2, 1].length)
        = .ok (out.map Any.int, .ints []) ∧
      out.Sorted (· ≤ ·) ∧ out.Perm [3, 1, 2, 1] ∧ out = [3, 1, 2, 1].insertionSort (· ≤ ·) :=
  push_then_pop_sorts [3, 1, 2, 1] (by decide)

/-- C8: for any `[]int` value `h` (no heap invariant assumed) and `0 <= i < len(h)`,
`Remove(h, i)` returns the element that was at index `i` and leaves the other elements
(the original multiset minus one occurrence of the returned value); hence removing at index
`(len-1)/2` until the slice is empty returns a permutation of the original elements, each
of `0..N-1` exactly once when the slice held `0..N-1`. -/
theorem Remove_returns_element (a : List Int) (i : Int) (hlen : a.length < maxLen)
    (h0 : 0 ≤ i) (hi : i < a.length) :
    (∃ (v : Int) (a' : List Int), Remove (.ints a) i = .ok (.int v, .ints a') ∧
      a[i.toNat]? = some v ∧ (v :: a').Perm a) ∧
    (∃ out : List Int, removeMid (a.length + 1) (.ints a) = .ok (out.map Any.int, .ints []) ∧
      out.Perm a ∧
      ∀ N : Nat, a.Perm ((List.range N).map Int.ofNat) →
        out.Perm ((List.range N).map Int.ofNat) ∧ out.Nodup) := by
  obtain ⟨k, rfl⟩ := Int.eq_ofNat_of_zero_le h0
  have hk : k < a.length := by omega
  constructor
  · refine ⟨_, _, Remove_ints a k hlen hk, ?_, ?_⟩
    · rw [removeN_last a k hk, ent_eq_getElem a k hk]
      simp only [Int.toNat_ofNat]
      exact List.getElem?_eq_getElem hk
    · rw [removeN_last a k hk]
      exact perm_remove a k hk
  · obtain ⟨out, e, hp⟩ := removeMid_ints (a.length + 1) a (by omega) hlen
    refine ⟨out, e, hp, fun N hN => ⟨hp.trans hN, ?_⟩⟩
    have hnd : ((List.range N).map Int.ofNat).Nodup :=
      (List.nodup_range N).map Int.ofNat_injective
    exact (hp.trans hN).nodup_iff.mpr hnd

theorem Remove_returns_element_witness :
    (∃ (v : Int) (a' : List Int),
      Remove (.ints [0, 1, 2, 3, 4, 5]) 2 = .ok (.int v, .ints a') ∧
      ([0, 1, 2, 3, 4, 5] : List Int)[(2 : Int).toNat]? = some v ∧
      (v :: a').Perm [0, 1, 2, 3, 4, 5]) ∧
    (∃ out : List Int,
      removeMid (([0, 1, 2, 3, 4, 5] : List Int).length + 1) (.ints [0, 1, 2, 3, 4, 5])
        = .ok (out.map Any.int, .ints []) ∧
      out.Perm [0, 1, 2, 3, 4, 5] ∧
      out.Perm ((List.range 6).map Int.ofNat) ∧ out.Nodup) :=
  have h := Remove_returns_element [0, 1, 2, 3, 4, 5] 2 (by decide) (by decide) (by decide)
  ⟨h.1, h.2.elim fun out ho => ⟨out, ho.1, ho.2.1, ho.2.2 6 (List.Perm.refl _)⟩⟩

/-- C9: on every non-empty `[]int` value (heap or not) `Pop(h)` and `Remove(h, 0)` return the
same value and leave the same slice. -/
theorem Pop_equiv_Remove_zero (a : List Int) (hlen : a.length < maxLen) (hne : 0 < a.length) :
    ∃ (v : Int) (a' : List Int), Pop (.ints a) = .ok (.int v, .ints a') ∧
      Remove (.ints a) 0 = .ok (.int v, .ints a') := by
  refine ⟨_, _, Pop_ints_removeN a hlen hne, ?_⟩
  have h0 : (0 : Int) = ((0 : Nat) : Int) := rfl
  rw [h0]
  exact Remove_ints a 0 hlen hne

theorem Pop_equiv_Remove_zero_witness :
    ∃ (v : Int) (a' : List Int), Pop (.ints [4, 2, 9, 1]) = .ok (.int v, .ints a') ∧
      Remove (.ints [4, 2, 9, 1]) 0 = .ok (.int v, .ints a') :=
  Pop_equiv_Remove_zero [4, 2, 9, 1] (by decide) (by decide)

/-- C10: length conservation: `Push` makes the slice one longer; `Pop` on a non-empty slice
and `Remove` at an index `0 <= i < len(h)` make it one shorter. -/
theorem length_conservation (a : List Int) (x : Int) (i : Int) (hlen : a.length + 1 < maxLen) :
    (∃ a' : List Int, Push (.ints a) (.int x) = .ok (.ints a') ∧ a'.length = a.length + 1) ∧
    (0 < a.length → ∃ (v : Int) (a' : List Int), Pop (.ints a) = .ok (.int v, .ints a') ∧
      a'.length = a.length - 1) ∧
    (0 ≤ i → i < a.length → ∃ (v : Int) (a' : List Int),
      Remove (.ints a) i = .ok (.int v, .ints a') ∧ a'.length = a.length - 1) := by
  have hl : a.length < maxLen := by omega
  refine ⟨⟨_, Push_ints a x hlen, ?_⟩, fun hne => ⟨_, _, Pop_ints_removeN a hl hne, ?_⟩, ?_⟩
  · rw [length_upN]; simp
  · exact length_remove a 0
  · intro h0 hi
    obtain ⟨k, rfl⟩ := Int.eq_ofNat_of_zero_le h0
    exact ⟨_, _, Remove_ints a k hl (by omega), length_remove a k⟩

theorem length_conservation_witness :
    (∃ a' : List Int, Push (.ints [5, 7, 1, 3]) (.int 3) = .ok (.ints a') ∧
      a'.length = ([5, 7, 1, 3] : List Int).length + 1) ∧
    (∃ (v : Int) (a' : List Int), Pop (.ints [5, 7, 1, 3]) = .ok (.int v, .ints a') ∧
      a'.length = ([5, 7, 1, 3] : List Int).length - 1) ∧
    (∃ (v : Int) (a' : List Int), Remove (.ints [5, 7, 1, 3]) 2 = .ok (.int v, .ints a') ∧
      a'.length = ([5, 7, 1, 3] : List Int).length - 1) :=
  have h := length_conservation [5, 7, 1, 3] 3 2 (by decide)
  ⟨h.1, h.2.1 (by decide), h.2.2 (by decide) (by decide)⟩

/-! ### A heap is left alone by the sift loops -/

theorem downN_heap_id (f : Nat) (a : List Int) (i n : Nat) (h : HeapFrom a n 0) :
    downN f a i n = (a, i) := by
  cases f with
  | zero => rfl
  | succ f =>
    rw [downN_succ]
    split
    · rfl
    · rename_i hc
      have hj := child_cases a i n
      have hle : ent a i ≤ ent a (child a i n) := by
        have := h (child a i n) (by omega) (by omega) (Nat.zero_le _)
        have hp : (child a i n - 1) / 2 = i := by omega
        rwa [hp] at this
      rw [if_neg (not_lt.mpr hle)]

theorem upN_heap_id (f : Nat) (a : List Int) (j n : Nat) (h : HeapFrom a n 0) (hj : j < n) :
    upN f a j = a := by
  cases f with
  | zero => rfl
  | succ f =>
    rw [upN_succ]
    split
    · rfl
    · rename_i h0
      have hle := h j (by omega) hj (Nat.zero_le _)
      rw [if_neg (not_lt.mpr hle)]

theorem repairN_heap_id (a : List Int) (i : Nat) (hi : i < a.length) (h : HeapInv a) :
    repairN a i a.length = a := by
  have hf := (heapInv_iff a).mp h
  unfold repairN
  rw [downN_heap_id _ a i _ hf]
  simp only [lt_irrefl, if_false]
  exact upN_heap_id _ a i _ hf hi

/-- C11: on a slice that satisfies the heap invariant, `Fix(h, i)` at any index
`0 <= i < len(h)` completes and leaves the slice unchanged, element for element. -/
theorem Fix_heap_unchanged (a : List Int) (i : Int) (hlen : a.length < maxLen)
    (h0 : 0 ≤ i) (hi : i < a.length) (h : HeapInv a) :
    Fix (.ints a) i = .ok (.ints a) := by
  obtain ⟨k, rfl⟩ := Int.eq_ofNat_of_zero_le h0
  have hk : k < a.length := by omega
  rw [Fix_ints a k hlen hk, repairN_heap_id a k hk h]

theorem Fix_heap_unchanged_witness :
    Fix (.ints [1, 3, 5, 7, 3]) 1 = .ok (.ints [1, 3, 5, 7, 3]) :=
  Fix_heap_unchanged [1, 3, 5, 7, 3] 1 (by decide) (by decide) (by decide) (by decide)

/-- C13: for a value of a type that is neither `*[]int` nor `*[]string` (nor a
`container/heap.Interface`), `Init` does not panic: it returns an error wrapping
`ErrUnsupportedHeap` with the type name, and the value is left as it was. -/
theorem Init_unsupported_type (t : String) :
    Init (.other t) = .ok (some (Error.unsupportedHeap t), .other t) := rfl

/-- C14, evaluated on `h = &[]string{"b", "a"}`: `Init` returns the unsupported-type error
and leaves the slice as it was, with the child `"a"` less than its parent `"b"`, although
`Len`, `Less` and `Swap` all operate on it. -/
theorem Init_strings_unsupported :
    Init (.strs ["b", "a"]) = .ok (some (Error.unsupportedHeap "*[]string"), .strs ["b", "a"]) ∧
    Len (.strs ["b", "a"]) = .ok 2 ∧
    Less (.strs ["b", "a"]) 1 0 = .ok true ∧
    Swap (.strs ["b", "a"]) 0 1 = .ok (.strs ["a", "b"]) := by
  refine ⟨rfl, rfl, ?_, ?_⟩
  · with_unfolding_all decide
  · with_unfolding_all decide

/-- C18, evaluated on `TestHeap` (`h = [5, 7, 1, 3]`, `Init`, `Push(h, 3)`, `Pop`): the popped
value is `1`, the least of `5, 7, 1, 3, 3`, and not the `0` that the assertion
`if min != 0` of the test requires, so the check of the test does not pass. -/
theorem testHeap_pops_one_not_zero :
    testHeapMin = .ok (.int 1) ∧ testHeapMin ≠ .ok (.int 0) ∧ testHeapCheck = .ok false := by
  refine ⟨?_, ?_, ?_⟩
  · with_unfolding_all decide
  · with_unfolding_all decide
  · with_unfolding_all decide

/-! ### Faults of the primitives -/

theorem bind_error {α β : Type} (e : Fault) (f : α → Except Fault β) :
    (Except.error e : Except Fault α).bind f = .error e := rfl

theorem index_fault {α : Type} (a : List α) (i : Int) (h : i < 0 ∨ (a.length : Int) ≤ i) :
    index a i = .error .indexOutOfRange := by
  rcases h with h | h
  · exact index_neg a i h
  · exact index_ge a i h

theorem index_ok_range {α : Type} (a : List α) (i : Int) (v : α) (h : index a i = .ok v) :
    0 ≤ i ∧ i < (a.length : Int) := by
  by_contra hc
  have hf : i < 0 ∨ (a.length : Int) ≤ i := by omega
  rw [index_fault a i hf] at h
  exact Except.noConfusion h

theorem index_total {α : Type} (a : List α) (i : Int) :
    index a i = .error .indexOutOfRange ∨ ∃ v, index a i = .ok v := by
  unfold index
  split
  · exact Or.inl rfl
  · split
    · rename_i v _; exact Or.inr ⟨v, rfl⟩
    · exact Or.inl rfl

theorem swapAt_fault {α : Type} (a : List α) (i j : Int)
    (h : (i < 0 ∨ (a.length : Int) ≤ i) ∨ (j < 0 ∨ (a.length : Int) ≤ j)) :
    swapAt a i j = .error .indexOutOfRange := by
  unfold swapAt
  simp only [bind]
  rcases index_total a j with hj | ⟨y, hj⟩
  · rw [hj, bind_error]
  · rw [hj, bind_ok]
    rcases h with h | h
    · rw [index_fault a i h, bind_error]
    · rw [index_fault a j h] at hj
      exact Except.noConfusion hj

theorem Swap_fault (a : List Int) (i j : Int)
    (h : (i < 0 ∨ (a.length : Int) ≤ i) ∨ (j < 0 ∨ (a.length : Int) ≤ j)) :
    Swap (.ints a) i j = .error .indexOutOfRange := by
  simp only [Swap, bind]
  rw [swapAt_fault a i j h, bind_error]

theorem Less_fault (a : List Int) (i j : Int)
    (h : (i < 0 ∨ (a.length : Int) ≤ i) ∨ (j < 0 ∨ (a.length : Int) ≤ j)) :
    Less (.ints a) i j = .error .indexOutOfRange := by
  simp only [Less, bind]
  rcases index_total a i with hi | ⟨x, hi⟩
  · rw [hi, bind_error]
  · rw [hi, bind_ok]
    rcases h with h | h
    · rw [index_fault a i h] at hi
      exact Except.noConfusion hi
    · rw [index_fault a j h, bind_error]

theorem Less_ok_range (a : List Int) (i j : Int) (b : Bool) (h : Less (.ints a) i j = .ok b) :
    (0 ≤ i ∧ i < (a.length : Int)) ∧ (0 ≤ j ∧ j < (a.length : Int)) := by
  by_contra hc
  have hf : (i < 0 ∨ (a.length : Int) ≤ i) ∨ (j < 0 ∨ (a.length : Int) ≤ j) := by omega
  rw [Less_fault a i j hf] at h
  exact Except.noConfusion h

theorem Swap_ok_range (a : List Int) (i j : Int) (r : Dyn) (h : Swap (.ints a) i j = .ok r) :
    (0 ≤ i ∧ i < (a.length : Int)) ∧ (0 ≤ j ∧ j < (a.length : Int)) := by
  by_contra hc
  have hf : (i < 0 ∨ (a.length : Int) ≤ i) ∨ (j < 0 ∨ (a.length : Int) ≤ j) := by omega
  rw [Swap_fault a i j hf] at h
  exact Except.noConfusion h

theorem PopLast_nil : PopLast (.ints []) = .error .indexOutOfRange := by
  have hw : wrap (((([] : List Int).length : Nat) : Int) - 1) = -1 := by
    unfold wrap; decide
  simp only [PopLast, bind]
  rw [hw, index_neg _ _ (by decide), bind_error]

theorem Remove_fault (a : List Int) (i : Int) (hlen : a.length < maxLen)
    (h : i < 0 ∨ (a.length : Int) ≤ i) :
    Remove (.ints a) i = .error .indexOutOfRange := by
  unfold Remove
  have hw : wrap ((a.length : Int) - 1) = (a.length : Int) - 1 := by
    unfold wrap; unfold maxLen at hlen; omega
  simp only [Len, bind]
  rw [bind_ok, hw]
  by_cases hni : (a.length : Int) - 1 = i
  · have h0 : a.length = 0 := by omega
    have ha : a = [] := List.eq_nil_of_length_eq_zero h0
    subst ha
    rw [if_neg (not_not.mpr hni)]
    exact PopLast_nil
  · rw [if_pos hni, Swap_fault a i _ (Or.inl h), bind_error]

theorem Pop_nil : Pop (.ints []) = .error .indexOutOfRange := by
  unfold Pop
  simp only [Len, bind]
  rw [bind_ok, Swap_fault [] 0 _ (Or.inl (Or.inr (by simp))), bind_error]

/-- C16: `Pop` on an empty `[]int`, and `Remove(h, i)` for any `[]int` value `h` and any
index outside `[0, len(h))`, panic with index out of range instead of returning. -/
theorem Pop_Remove_out_of_range_fault (a : List Int) (i : Int) (hlen : a.length < maxLen)
    (h : i < 0 ∨ (a.length : Int) ≤ i) :
    Pop (.ints []) = .error .indexOutOfRange ∧
    Remove (.ints a) i = .error .indexOutOfRange :=
  ⟨Pop_nil, Remove_fault a i hlen h⟩

theorem Pop_Remove_out_of_range_fault_witness :
    Pop (.ints []) = .error .indexOutOfRange ∧
    Remove (.ints [1, 2, 3]) 3 = .error .indexOutOfRange :=
  Pop_Remove_out_of_range_fault [1, 2, 3] 3 (by decide) (by decide)

/-! ### Overwriting one element -/

theorem perm_set_of_perm_cons (a r : List Int) (i : Nat) (v : Int) (hi : i < a.length)
    (hp : (ent a i :: r).Perm a) : (a.set i v).Perm (v :: r) := by
  rw [List.perm_iff_count] at hp ⊢
  intro b
  have hb := hp b
  rw [List.count_cons] at hb
  rw [List.count_set _ _ _ _ hi, List.count_cons, ← ent_eq_getElem a i hi]
  omega

/-- C12: for a heap `h`, an index `0 <= i < len(h)` and an int `v`, overwriting `h[i]` with
`v` and calling `Fix(h, i)` on the one hand, and calling `Remove(h, i)` then `Push(h, v)` on
the other, both complete, both leave a heap, and the two results have the same length and
the same multiset of elements. -/
theorem Fix_equiv_Remove_Push (a : List Int) (i : Int) (v : Int) (hlen : a.length < maxLen)
    (h0 : 0 ≤ i) (hi : i < a.length) (h : HeapInv a) :
    ∃ (a1 a2 a3 : List Int) (w : Int),
      Fix (.ints (a.set i.toNat v)) i = .ok (.ints a1) ∧
      Remove (.ints a) i = .ok (.int w, .ints a2) ∧
      Push (.ints a2) (.int v) = .ok (.ints a3) ∧
      HeapInv a1 ∧ HeapInv a3 ∧ a1.length = a3.length ∧ a1.Perm a3 := by
  obtain ⟨k, rfl⟩ := Int.eq_ofNat_of_zero_le h0
  have hk : k < a.length := by omega
  simp only [Int.toNat_ofNat]
  have hl : (a.set k v).length = a.length := List.length_set _ _ _
  have hr := length_remove a k
  have hinv2 : HeapInv (removeN a k).dropLast := by
    apply heapInv_dropLast
    rw [length_removeN]
    exact heapFrom_removeN a k hk h
  have hperm : (repairN (a.set k v) k (a.set k v).length).Perm
      (upN ((removeN a k).dropLast.length + 1) ((removeN a k).dropLast ++ [v])
        (removeN a k).dropLast.length) := by
    have p1 := perm_repairN (a.set k v) k (a.set k v).length (le_refl _) (by rw [hl]; exact hk)
    have p2 := perm_set_of_perm_cons a _ k v hk (perm_remove a k hk)
    have p3 : (v :: (removeN a k).dropLast).Perm ((removeN a k).dropLast ++ [v]) :=
      (List.perm_append_singleton _ _).symm
    have p4 := perm_upN ((removeN a k).dropLast.length + 1) ((removeN a k).dropLast ++ [v])
      (removeN a k).dropLast.length (by simp)
    exact ((p1.trans p2).trans p3).trans p4.symm
  refine ⟨_, _, _, _, Fix_ints (a.set k v) k (by rw [hl]; exact hlen) (by rw [hl]; exact hk),
    Remove_ints a k hlen hk, Push_ints _ v (by omega), ?_, ?_, hperm.length_eq, hperm⟩
  · rw [heapInv_iff, length_repairN]
    exact heapFrom_fix a k v hk h
  · rw [heapInv_iff, length_upN]
    simpa using heapFrom_push _ v hinv2

theorem Fix_equiv_Remove_Push_witness :
    ∃ (a1 a2 a3 : List Int) (w : Int),
      Fix (.ints (([10, 20, 30, 40] : List Int).set (1 : Int).toNat 5)) 1 = .ok (.ints a1) ∧
      Remove (.ints [10, 20, 30, 40]) 1 = .ok (.int w, .ints a2) ∧
      Push (.ints a2) (.int 5) = .ok (.ints a3) ∧
      HeapInv a1 ∧ HeapInv a3 ∧ a1.length = a3.length ∧ a1.Perm a3 :=
  Fix_equiv_Remove_Push [10, 20, 30, 40] 1 5 (by decide) (by decide) (by decide) (by decide)

/-- C15: on a `[]int` value every operation completes without a panic under its
precondition: `Init` and `Push` always, `Pop` on a non-empty slice, `Remove` and `Fix` at an
index `0 <= i < len(h)`.  Every element read (`Less`) or exchanged (`Swap`) goes through an
index expression, and those return only for indices in `[0, len(h))`. -/
theorem operations_total (a : List Int) (x : Int) (i : Int) :
    (a.length < maxLen → ∃ a' : List Int, Init (.ints a) = .ok (none, .ints a')) ∧
    (a.length + 1 < maxLen → ∃ a' : List Int, Push (.ints a) (.int x) = .ok (.ints a')) ∧
    (a.length < maxLen → 0 < a.length →
      ∃ (v : Int) (a' : List Int), Pop (.ints a) = .ok (.int v, .ints a')) ∧
    (a.length < maxLen → 0 ≤ i → i < a.length →
      (∃ (v : Int) (a' : List Int), Remove (.ints a) i = .ok (.int v, .ints a')) ∧
      (∃ a' : List Int, Fix (.ints a) i = .ok (.ints a'))) ∧
    (∀ (j k : Int) (b : Bool), Less (.ints a) j k = .ok b →
      (0 ≤ j ∧ j < (a.length : Int)) ∧ (0 ≤ k ∧ k < (a.length : Int))) ∧
    (∀ (j k : Int) (r : Dyn), Swap (.ints a) j k = .ok r →
      (0 ≤ j ∧ j < (a.length : Int)) ∧ (0 ≤ k ∧ k < (a.length : Int))) := by
  refine ⟨fun hl => ⟨_, Init_ints a hl⟩, fun hl => ⟨_, Push_ints a x hl⟩,
    fun hl hne => ⟨_, _, Pop_ints_removeN a hl hne⟩, ?_, Less_ok_range a, Swap_ok_range a⟩
  intro hl h0 hi
  obtain ⟨k, rfl⟩ := Int.eq_ofNat_of_zero_le h0
  have hk : k < a.length := by omega
  exact ⟨⟨_, _, Remove_ints a k hl hk⟩, ⟨_, Fix_ints a k hl hk⟩⟩

theorem operations_total_witness :
    (∃ a' : List Int, Init (.ints [5, 7, 1, 3]) = .ok (none, .ints a')) ∧
    (∃ a' : List Int, Push (.ints [5, 7, 1, 3]) (.int 3) = .ok (.ints a')) ∧
    (∃ (v : Int) (a' : List Int), Pop (.ints [5, 7, 1, 3]) = .ok (.int v, .ints a')) ∧
    (∃ (v : Int) (a' : List Int), Remove (.ints [5, 7, 1, 3]) 2 = .ok (.int v, .ints a')) ∧
    (∃ a' : List Int, Fix (.ints [5, 7, 1, 3]) 2 = .ok (.ints a')) :=
  have h := operations_total [5, 7, 1, 3] 3 2
  ⟨h.1 (by decide), h.2.1 (by decide), h.2.2.1 (by decide) (by decide),
    (h.2.2.2.1 (by decide) (by decide) (by decide)).1,
    (h.2.2.2.1 (by decide) (by decide) (by decide)).2⟩

/-- C19: element conservation on `[]int`: `Init` and `Fix` (at an index `0 <= i < len(h)`)
leave a permutation of the elements, and `Push(h, x)` leaves the elements of `h` together
with one more occurrence of `x`. -/
theorem element_conservation (a : List Int) (x : Int) (i : Int) :
    (a.length < maxLen →
      ∃ a' : List Int, Init (.ints a) = .ok (none, .ints a') ∧ a'.Perm a) ∧
    (a.length < maxLen → 0 ≤ i → i < a.length →
      ∃ a' : List Int, Fix (.ints a) i = .ok (.ints a') ∧ a'.Perm a) ∧
    (a.length + 1 < maxLen →
      ∃ a' : List Int, Push (.ints a) (.int x) = .ok (.ints a') ∧ a'.Perm (a ++ [x])) := by
  refine ⟨fun hl => ⟨_, Init_ints a hl, perm_initN _ a _ (le_refl _)⟩, ?_,
    fun hl => ⟨_, Push_ints a x hl, perm_upN _ _ _ (by simp)⟩⟩
  intro hl h0 hi
  obtain ⟨k, rfl⟩ := Int.eq_ofNat_of_zero_le h0
  have hk : k < a.length := by omega
  exact ⟨_, Fix_ints a k hl hk, perm_repairN a k _ (le_refl _) hk⟩

theorem element_conservation_witness :
    (∃ a' : List Int, Init (.ints [5, 7, 1, 3]) = .ok (none, .ints a') ∧
      a'.Perm [5, 7, 1, 3]) ∧
    (∃ a' : List Int, Fix (.ints [5, 7, 1, 3]) 0 = .ok (.ints a') ∧ a'.Perm [5, 7, 1, 3]) ∧
    (∃ a' : List Int, Push (.ints [5, 7, 1, 3]) (.int 3) = .ok (.ints a') ∧
      a'.Perm ([5, 7, 1, 3] ++ [3])) :=
  have h := element_conservation [5, 7, 1, 3] 3 0
  ⟨h.1 (by decide), h.2.1 (by decide) (by decide) (by decide), h.2.2 (by decide)⟩

/-! ### `Fix` outside the index range -/

theorem Less_total (a : List Int) (i j : Int) :
    Less (.ints a) i j = .error .indexOutOfRange ∨ ∃ b, Less (.ints a) i j = .ok b := by
  simp only [Less, bind]
  rcases index_total a i with hi | ⟨x, hi⟩
  · rw [hi, bind_error]; exact Or.inl rfl
  · rw [hi, bind_ok]
    rcases index_total a j with hj | ⟨y, hj⟩
    · rw [hj, bind_error]; exact Or.inl rfl
    · rw [hj, bind_ok]; exact Or.inr ⟨_, rfl⟩

theorem downLoop_break (f : Nat) (h : Dyn) (i n : Int)
    (hb : wrap (2 * i + 1) ≥ n ∨ wrap (2 * i + 1) < 0) :
    downLoop (f + 1) h i n = .ok (h, i) := by
  rw [downLoop]
  simp only []
  rw [if_pos hb]
  rfl

theorem downLoop_neg (f : Nat) (a : List Int) (i n : Int) (hi : i < 0) :
    downLoop (f + 1) (.ints a) i n = .ok (.ints a, i) ∨
    downLoop (f + 1) (.ints a) i n = .error .indexOutOfRange := by
  by_cases hb : wrap (2 * i + 1) ≥ n ∨ wrap (2 * i + 1) < 0
  · exact Or.inl (downLoop_break f _ i n hb)
  · right
    rw [downLoop]
    simp only []
    rw [if_neg hb]
    simp only [bind]
    split
    · rcases Less_total a (wrap (wrap (2 * i + 1) + 1)) (wrap (2 * i + 1)) with hr | ⟨b, hr⟩
      · rw [hr, bind_error]
      · rw [hr, bind_ok, Less_fault a _ i (Or.inr (Or.inl hi)), bind_error]
    · rw [show (pure false : Except Fault Bool) = .ok false from rfl, bind_ok,
        Less_fault a _ i (Or.inr (Or.inl hi)), bind_error]

theorem down_of_loop_ok (h r : Dyn) (i n k : Int)
    (e : downLoop (size h + 1) h i n = .ok (r, k)) :
    down h i n = .ok (r, decide (k > i)) := by
  unfold down
  rw [e]
  rfl

theorem down_of_loop_error (h : Dyn) (i n : Int) (e : Fault)
    (he : downLoop (size h + 1) h i n = .error e) : down h i n = .error e := by
  unfold down
  rw [he]
  rfl

theorem upLoop_stop (f : Nat) (h : Dyn) (j : Int) (hp : Int.tdiv (wrap (j - 1)) 2 = j) :
    upLoop (f + 1) h j = .ok h := by
  rw [upLoop]
  rw [if_pos hp]
  rfl

theorem upLoop_fault (f : Nat) (a : List Int) (j : Int)
    (hout : j < 0 ∨ (a.length : Int) ≤ j) (hp : Int.tdiv (wrap (j - 1)) 2 ≠ j) :
    upLoop (f + 1) (.ints a) j = .error .indexOutOfRange := by
  rw [upLoop]
  rw [if_neg hp]
  simp only [bind]
  rw [Less_fault a j _ (Or.inl hout), bind_error]

theorem parent_ne (j : Int) (hmin : -9223372036854775808 ≤ j) (hmax : j < 9223372036854775808)
    (h0 : j ≠ 0) (h1 : j ≠ -1) : Int.tdiv (wrap (j - 1)) 2 ≠ j := by
  by_cases hpos : 0 < j
  · have hw : wrap (j - 1) = j - 1 := by unfold wrap; omega
    rw [hw, Int.tdiv_eq_ediv (by omega) (by omega)]
    omega
  · by_cases hm : j = -9223372036854775808
    · subst hm
      have hw : wrap (-9223372036854775808 - 1) = 9223372036854775807 := by
        unfold wrap; decide
      rw [hw]
      decide
    · have hw : wrap (j - 1) = -(1 - j) := by unfold wrap; omega
      rw [hw, Int.neg_tdiv, Int.tdiv_eq_ediv (by omega) (by omega)]
      omega

theorem parent_zero : Int.tdiv (wrap (0 - 1)) 2 = 0 := by
  have hw : wrap (0 - 1) = -1 := by unfold wrap; decide
  rw [hw]; decide

theorem parent_neg_one : Int.tdiv (wrap (-1 - 1)) 2 = -1 := by
  have hw : wrap (-1 - 1) = -2 := by unfold wrap; decide
  rw [hw]; decide

theorem Fix_of_down_break (a : List Int) (i : Int)
    (hb : wrap (2 * i + 1) ≥ (a.length : Int) ∨ wrap (2 * i + 1) < 0) :
    Fix (.ints a) i = up (.ints a) i := by
  unfold Fix
  simp only [Len, bind]
  rw [bind_ok, down_of_loop_ok _ _ i _ i (downLoop_break _ _ i _ hb), bind_ok]
  simp

theorem Fix_neg_one (a : List Int) : Fix (.ints a) (-1) = .ok (.ints a) := by
  have hb : wrap (2 * (-1 : Int) + 1) ≥ (a.length : Int) ∨ wrap (2 * (-1 : Int) + 1) < 0 := by
    right; unfold wrap; decide
  rw [Fix_of_down_break a (-1) hb]
  exact upLoop_stop _ _ _ parent_neg_one

theorem Fix_nil_zero : Fix (.ints []) 0 = .ok (.ints []) := by
  have hb : wrap (2 * (0 : Int) + 1) ≥ ((([] : List Int).length : Nat) : Int) ∨
      wrap (2 * (0 : Int) + 1) < 0 := by
    left; unfold wrap; decide
  rw [Fix_of_down_break [] 0 hb]
  exact upLoop_stop _ _ _ parent_zero

theorem Fix_fault (a : List Int) (i : Int) (hlen : a.length < maxLen)
    (hmin : -9223372036854775808 ≤ i) (hmax : i < 9223372036854775808)
    (hout : i < 0 ∨ (a.length : Int) ≤ i) (h1 : i ≠ -1) (h0 : ¬ (i = 0 ∧ a = [])) :
    Fix (.ints a) i = .error .indexOutOfRange := by
  have hi0 : i ≠ 0 := by
    intro h
    apply h0
    refine ⟨h, List.eq_nil_of_length_eq_zero ?_⟩
    omega
  have hup : up (.ints a) i = .error .indexOutOfRange :=
    upLoop_fault _ a i hout (parent_ne i hmin hmax hi0 h1)
  by_cases hneg : i < 0
  · rcases downLoop_neg (size (.ints a)) a i (a.length : Int) hneg with hd | hd
    · unfold Fix
      simp only [Len, bind]
      rw [bind_ok, down_of_loop_ok _ _ i _ i hd, bind_ok]
      simp only [gt_iff_lt, lt_irrefl, decide_False, Bool.not_false, if_true]
      exact hup
    · unfold Fix
      simp only [Len, bind]
      rw [bind_ok, down_of_loop_error _ i _ _ hd, bind_error]
  · have hb : wrap (2 * i + 1) ≥ (a.length : Int) ∨ wrap (2 * i + 1) < 0 := by
      unfold wrap; unfold maxLen at hlen; omega
    rw [Fix_of_down_break a i hb]
    exact hup

/-- C17 as stated fails: `Fix` at index `-1` of `[1, 2]`, and at index `0` of the empty
slice, both outside `[0, len(h))`, completes normally and leaves the slice as it was. -/
theorem Fix_out_of_range_completes :
    ((-1 : Int) < 0 ∧ Fix (.ints [1, 2]) (-1) = .ok (.ints [1, 2])) ∧
    (((([] : List Int).length : Nat) : Int) ≤ 0 ∧ Fix (.ints []) 0 = .ok (.ints [])) :=
  ⟨⟨by decide, Fix_neg_one [1, 2]⟩, ⟨by decide, Fix_nil_zero⟩⟩

/-- C17, amended: for a `[]int` value `h` and a Go `int` index `i` outside `[0, len(h))`,
`Fix(h, i)` panics with index out of range, except at `i = -1` and at `i = 0` on the empty
slice, where it completes normally and leaves `h` as it was. -/
theorem Fix_out_of_range (a : List Int) (i : Int) (hlen : a.length < maxLen)
    (hmin : -9223372036854775808 ≤ i) (hmax : i < 9223372036854775808)
    (hout : i < 0 ∨ (a.length : Int) ≤ i) :
    ((i = -1 ∨ (i = 0 ∧ a = [])) → Fix (.ints a) i = .ok (.ints a)) ∧
    (¬ (i = -1 ∨ (i = 0 ∧ a = [])) → Fix (.ints a) i = .error .indexOutOfRange) := by
  constructor
  · rintro (h | ⟨h, ha⟩)
    · subst h; exact Fix_neg_one a
    · subst h; subst ha; exact Fix_nil_zero
  · intro h
    exact Fix_fault a i hlen hmin hmax hout (fun h1 => h (Or.inl h1)) (fun h0 => h (Or.inr h0))

theorem Fix_out_of_range_witness :
    Fix (.ints [1, 2]) 5 = .error .indexOutOfRange ∧
    Fix (.ints [1, 2]) (-2) = .error .indexOutOfRange ∧
    Fix (.ints [1, 2]) (-1) = .ok (.ints [1, 2]) :=
  ⟨(Fix_out_of_range [1, 2] 5 (by decide) (by decide) (by decide) (by decide)).2 (by decide),
   (Fix_out_of_range [1, 2] (-2) (by decide) (by decide) (by decide) (by decide)).2 (by decide),
   (Fix_out_of_range [1, 2] (-1) (by decide) (by decide) (by decide) (by decide)).1 (by decide)⟩

/-! ### Counting the exchanges of `down` -/

theorem downSwaps_ints (f : Nat) : ∀ (a : List Int) (i n c : Nat), a.length < maxLen →
    n ≤ a.length → i < maxLen → n ≤ i + f + 1 →
    downSwaps (f + 1) (.ints a) (i : Int) (n : Int) c
      = .ok (.ints (downN f a i n).1, ((downN f a i n).2 : Int), c + downCount f a i n) := by
  induction f with
  | zero =>
    intro a i n c hlen hn hi hf
    have hb : wrap (2 * (i : Int) + 1) ≥ (n : Int) ∨ wrap (2 * (i : Int) + 1) < 0 := by
      unfold wrap; unfold maxLen at hi; omega
    simp only [downSwaps, downN, downCount, hb, if_true]
    rfl
  | succ f ih =>
    intro a i n c hlen hn hi hf
    rw [downSwaps, downN, downCount]
    by_cases hc : n ≤ 2 * i + 1
    · have hb : wrap (2 * (i : Int) + 1) ≥ (n : Int) ∨ wrap (2 * (i : Int) + 1) < 0 := by
        unfold wrap; unfold maxLen at hi; omega
      simp only [hb, hc, if_true]
      rfl
    · have hj1 : wrap (2 * (i : Int) + 1) = ((2 * i + 1 : Nat) : Int) := by
        unfold wrap; unfold maxLen at hlen; push_cast; omega
      have hb : ¬ (((2 * i + 1 : Nat) : Int) ≥ (n : Int) ∨ ((2 * i + 1 : Nat) : Int) < 0) := by
        omega
      have hj2 : wrap (((2 * i + 1 : Nat) : Int) + 1) = ((2 * i + 2 : Nat) : Int) := by
        unfold wrap; unfold maxLen at hlen; push_cast; omega
      rw [hj1]
      simp only [hb, hc, if_false, hj2]
      have hi' : i < a.length := by omega
      have h1 : 2 * i + 1 < a.length := by omega
      unfold child
      by_cases h2 : 2 * i + 2 < n
      · have h2' : ((2 * i + 2 : Nat) : Int) < (n : Int) := by omega
        have h2l : 2 * i + 2 < a.length := by omega
        simp only [h2', h2, if_true, true_and, Less_ints a _ _ h2l h1]
        by_cases hr : ent a (2 * i + 2) < ent a (2 * i + 1)
        · simp only [hr, decide_True, if_true, Except.bind, bind, Less_ints a _ _ h2l hi']
          by_cases hl : ent a (2 * i + 2) < ent a i
          · simp only [hl, decide_True, Bool.not_true, Bool.false_eq_true, if_false, if_true,
              Swap_ints a _ _ hi' h2l]
            rw [ih (swapN a i (2 * i + 2)) (2 * i + 2) n (c + 1)
              (by rw [length_swapN]; exact hlen)
              (by rw [length_swapN]; exact hn) (by omega) (by omega), Nat.add_assoc]
          · simp only [hl, decide_False, Bool.not_false, if_true, if_false]
            rfl
        · simp only [hr, decide_False, if_false, Except.bind, bind, Bool.false_eq_true,
            Less_ints a _ _ h1 hi']
          by_cases hl : ent a (2 * i + 1) < ent a i
          · simp only [hl, decide_True, Bool.not_true, Bool.false_eq_true, if_false, if_true,
              Swap_ints a _ _ hi' h1]
            rw [ih (swapN a i (2 * i + 1)) (2 * i + 1) n (c + 1)
              (by rw [length_swapN]; exact hlen)
              (by rw [length_swapN]; exact hn) (by omega) (by omega), Nat.add_assoc]
          · simp only [hl, decide_False, Bool.not_false, if_true, if_false]
            rfl
      · have h2' : ¬ ((2 * i + 2 : Nat) : Int) < (n : Int) := by omega
        simp only [h2', h2, if_false, false_and, Except.bind, bind, pure, Except.pure,
          Bool.false_eq_true, Less_ints a _ _ h1 hi']
        by_cases hl : ent a (2 * i + 1) < ent a i
        · simp only [hl, decide_True, Bool.not_true, Bool.false_eq_true, if_false, if_true,
            Swap_ints a _ _ hi' h1]
          rw [ih (swapN a i (2 * i + 1)) (2 * i + 1) n (c + 1)
            (by rw [length_swapN]; exact hlen)
            (by rw [length_swapN]; exact hn) (by omega) (by omega), Nat.add_assoc]
        · simp only [hl, decide_False, Bool.not_false, if_true, if_false]
          rfl

theorem downCount_pos_iff (f : Nat) (a : List Int) (i n : Nat) :
    0 < downCount f a i n ↔ i < (downN f a i n).2 := by
  cases f with
  | zero => simp [downCount, downN]
  | succ f =>
    rw [downCount, downN_succ]
    split
    · simp
    · split
      · have hge := downN_ge f (swapN a i (child a i n)) (child a i n) n
        have hc := child_cases a i n
        constructor
        · intro _; omega
        · intro _; omega
      · simp

theorem downN_changed (f : Nat) (a : List Int) (i n : Nat) (hn : n ≤ a.length)
    (h : i < (downN f a i n).2) : (downN f a i n).1 ≠ a := by
  cases f with
  | zero => simp [downN] at h
  | succ f =>
    rw [downN_succ] at h ⊢
    split
    · rename_i hc; rw [if_pos hc] at h; exact absurd h (lt_irrefl _)
    · rename_i hc
      rw [if_neg hc] at h
      split
      · rename_i hlt
        have hj := child_cases a i n
        intro heq
        have h1 := downN_out f (swapN a i (child a i n)) (child a i n) n i
          (by rw [length_swapN]; exact hn) (Or.inl (by omega))
        rw [heq, ent_swapN a i _ i (by omega) (by omega)] at h1
        have hne : i ≠ child a i n := by omega
        simp only [hne, if_false, if_true] at h1
        rw [h1] at hlt
        exact absurd hlt (lt_irrefl _)
      · rename_i hlt; rw [if_neg hlt] at h; exact absurd h (lt_irrefl _)

/-! ### `down` works on the first `n` elements only -/

theorem ent_take (a : List Int) (n k : Nat) (hk : k < n) : ent (a.take n) k = ent a k := by
  unfold ent
  simp only [List.getD_eq_getElem?_getD, List.getElem?_take_of_lt hk]

theorem swapN_take (a : List Int) (n i j : Nat) (hi : i < n) (hj : j < n) :
    swapN (a.take n) i j = (swapN a i j).take n := by
  unfold swapN
  rw [ent_take a n i hi, ent_take a n j hj, List.set_take, List.set_take]

theorem swapN_drop (a : List Int) (n i j : Nat) (hi : i < n) (hj : j < n) :
    (swapN a i j).drop n = a.drop n := by
  unfold swapN
  rw [List.drop_set_of_lt _ _ hj, List.drop_set_of_lt _ _ hi]

theorem child_take (a : List Int) (n i : Nat) :
    child (a.take n) i n = child a i n := by
  unfold child
  by_cases h2 : 2 * i + 2 < n
  · rw [ent_take a n _ h2, ent_take a n (2 * i + 1) (by omega)]
  · simp only [h2, false_and, if_false]

theorem downN_take (f : Nat) : ∀ (a : List Int) (i n : Nat),
    downN f a i n = ((downN f (a.take n) i n).1 ++ a.drop n, (downN f (a.take n) i n).2) := by
  induction f with
  | zero =>
    intro a i n
    simp only [downN, List.take_append_drop]
  | succ f ih =>
    intro a i n
    rw [downN_succ, downN_succ]
    by_cases hc : n ≤ 2 * i + 1
    · simp only [hc, if_true, List.take_append_drop]
    · have hj := child_cases a i n
      have hi : i < n := by omega
      have hjn : child a i n < n := by omega
      rw [if_neg hc, if_neg hc, child_take a n i, ent_take a n _ hjn, ent_take a n i hi]
      by_cases hlt : ent a (child a i n) < ent a i
      · rw [if_pos hlt, if_pos hlt, ih (swapN a i (child a i n)) (child a i n) n,
          swapN_take a n i _ hi hjn, swapN_drop a n i _ hi hjn]
      · simp only [hlt, if_false, List.take_append_drop]

theorem downN_fuel (f : Nat) : ∀ (g : Nat) (a : List Int) (i n : Nat), n ≤ i + f + 1 →
    n ≤ i + g + 1 → downN f a i n = downN g a i n := by
  induction f with
  | zero =>
    intro g a i n hf _
    cases g with
    | zero => rfl
    | succ g =>
      rw [downN_succ, if_pos (by omega)]
      rfl
  | succ f ih =>
    intro g a i n hf hg
    cases g with
    | zero =>
      rw [downN_succ, if_pos (by omega)]
      rfl
    | succ g =>
      rw [downN_succ, downN_succ]
      by_cases hc : n ≤ 2 * i + 1
      · simp only [hc, if_true]
      · have hj := child_cases a i n
        rw [if_neg hc, if_neg hc, ih g _ _ n (by omega) (by omega)]

theorem down_break (h : Dyn) (i n : Int)
    (hb : wrap (2 * i + 1) ≥ n ∨ wrap (2 * i + 1) < 0) : down h i n = .ok (h, false) := by
  rw [down_of_loop_ok h h i n i (downLoop_break _ h i n hb)]
  simp

theorem downSwaps_break (f : Nat) (h : Dyn) (i n : Int) (c : Nat)
    (hb : wrap (2 * i + 1) ≥ n ∨ wrap (2 * i + 1) < 0) :
    downSwaps (f + 1) h i n c = .ok (h, i, c) := by
  rw [downSwaps]
  simp only []
  rw [if_pos hb]
  rfl

/-- C20: for a `[]int` value `h`, a start index `i0 >= 0` and a bound `n <= len(h)`, `down`
completes; it returns `true` exactly when it made at least one call to `Swap`, which is
exactly when the slice it leaves differs from the one it was given; and it works on the
first `n` elements only: run on `h[:n]` it returns the same flag, and the slice it leaves is
that result followed by `h[n:]` untouched. -/
theorem down_reports_swaps (a : List Int) (i0 n : Int) (hlen : a.length < maxLen)
    (h0 : 0 ≤ i0) (hmax : i0 < 9223372036854775808) (hn : n ≤ a.length) :
    ∃ (r : List Int) (moved : Bool) (k : Int) (swaps : Nat),
      down (.ints a) i0 n = .ok (.ints r, moved) ∧
      downSwaps (a.length + 1) (.ints a) i0 n 0 = .ok (.ints r, k, swaps) ∧
      (moved = true ↔ 0 < swaps) ∧ (0 < swaps ↔ r ≠ a) ∧
      ∃ c : List Int, down (.ints (a.take n.toNat)) i0 n = .ok (.ints c, moved) ∧
        r = c ++ a.drop n.toNat := by
  obtain ⟨i, rfl⟩ := Int.eq_ofNat_of_zero_le h0
  have hi : i < maxLen := by unfold maxLen; omega
  by_cases hneg : n < 0
  · have hb : wrap (2 * (i : Int) + 1) ≥ n ∨ wrap (2 * (i : Int) + 1) < 0 := by
      unfold wrap; omega
    have ht : n.toNat = 0 := by omega
    refine ⟨a, false, (i : Int), 0, down_break _ _ n hb, downSwaps_break _ _ _ n 0 hb,
      by simp, by simp, [], ?_, ?_⟩
    · rw [ht, List.take_zero]; exact down_break _ _ n hb
    · rw [ht]; simp
  · obtain ⟨m, rfl⟩ := Int.eq_ofNat_of_zero_le (not_lt.mp hneg)
    have hm : m ≤ a.length := by omega
    simp only [Int.toNat_ofNat]
    have htl : (a.take m).length = m := by simp [hm]
    have hd := down_ints a i m hlen hm hi
    have hs := downSwaps_ints a.length a i m 0 hlen hm hi (by omega)
    have hdt := down_ints (a.take m) i m (by omega) (by omega) hi
    rw [htl] at hdt
    have htk := downN_take a.length a i m
    have hfu := downN_fuel a.length m (a.take m) i m (by omega) (by omega)
    rw [hfu] at htk
    refine ⟨_, _, _, _, hd, hs, ?_, ?_, (downN m (a.take m) i m).1, ?_, ?_⟩
    · rw [decide_eq_true_iff, Nat.zero_add]
      exact (downCount_pos_iff _ a i m).symm
    · rw [Nat.zero_add, downCount_pos_iff]
      constructor
      · exact downN_changed _ a i m hm
      · intro hne
        by_contra hc
        have hge := downN_ge a.length a i m
        have hfix : (downN a.length a i m).2 = i := by omega
        exact hne (downN_fix _ a i m hfix)
    · rw [hdt, htk]
    · rw [htk]

theorem down_reports_swaps_witness :
    ∃ (r : List Int) (moved : Bool) (k : Int) (swaps : Nat),
      down (.ints [9, 1, 2, 0]) 0 3 = .ok (.ints r, moved) ∧
      downSwaps (([9, 1, 2, 0] : List Int).length + 1) (.ints [9, 1, 2, 0]) 0 3 0
        = .ok (.ints r, k, swaps) ∧
      (moved = true ↔ 0 < swaps) ∧ (0 < swaps ↔ r ≠ [9, 1, 2, 0]) ∧
      ∃ c : List Int,
        down (.ints (([9, 1, 2, 0] : List Int).take (3 : Int).toNat)) 0 3 = .ok (.ints c, moved) ∧
        r = c ++ ([9, 1, 2, 0] : List Int).drop (3 : Int).toNat :=
  down_reports_swaps [9, 1, 2, 0] 0 3 (by decide) (by decide) (by decide) (by decide)

end Heap
